import Mathlib

/-!
# giles2: metadata index, view manager, archive requests and metadata inheritance

A shallow embedding of `plugins/bosswave/views/manager.go`, and of the parts of
`plugins/bosswave/archive.go`, `archiver/archiver.go`, `archiver/message.go` and
`archiver/util.go` that the theorems below are about.

* Go strings are Lean strings; `strings.Split` and `strings.Join` are embedded for the
  one-byte separator the source passes.
* A Go `map[string]V` is an association list with pairwise distinct keys (`GoMap`).
  A `range` loop visits `entries` in list order; Go leaves that order unspecified, so
  the theorems below speak through `lookup` and list membership only.
* Pointers to `View` are indices into a heap of views held by the manager state.
* A panic (index out of range, nil map entry) is the result `none`.
-/

namespace Giles

/-- A Go `map[string]V`. -/
abbrev GoMap (V : Type) := AList (fun _ : String => V)

/-! ## The parts of package `strings` the source calls -/

/-- Pieces of `s` between occurrences of `sep`, as `strings.Split` cuts them:
always one piece more than there are separators. -/
def splitOn (sep : Char) : List Char → List (List Char)
  | [] => [[]]
  | c :: cs =>
    if c = sep then [] :: splitOn sep cs
    else
      match splitOn sep cs with
      | [] => [[c]]
      | p :: ps => (c :: p) :: ps

namespace strings

/-- Go `strings.Split(s, sep)` for a separator of one byte. -/
def Split (s : String) (sep : Char) : List String :=
  (splitOn sep s.data).map String.mk

/-- Go `strings.Join(parts, sep)`. -/
def Join : List String → String → String
  | [], _ => ""
  | [a], _ => a
  | a :: b :: rest, sep => a ++ sep ++ Join (b :: rest) sep

end strings

/-! ## Transport messages (package `bw2bind`, external) -/

/-- A payload object of a transport message, seen through the calls `GetRecords` makes. -/
structure PayloadObject where
  /-- Result of `GetContents()`. -/
  contents : List Nat
  /-- Result of `IsTypeDF(bw.PODFSMetadata)`. -/
  isMetadataDF : Bool
  /-- Whether the dynamic type is `bw.MetadataPayloadObject`. -/
  isMetadataPO : Bool
  /-- Result of `Value()` on a metadata payload object: `nil` or the tuple's value. -/
  metaValue : Option (List Nat)
deriving DecidableEq, Repr

/-- The type `bw.SimpleMessage`. -/
structure SimpleMessage where
  URI : String
  From : String
  POs : List PayloadObject
deriving DecidableEq, Repr

/-- Go `msg.GetOnePODF(df)`: the first payload object of the dot-form type. -/
def SimpleMessage.GetOnePODF (msg : SimpleMessage) : Option PayloadObject :=
  msg.POs.find? (fun p => p.isMetadataDF)

/-! ## Metadata records -/

structure MetadataRecord where
  Key : String
  Value : List Nat
  Namespace : String
  URI : String
  VK : String
  Time : Int
  Msg : Option SimpleMessage
deriving DecidableEq, Repr

/-- Go `(*MetadataRecord).Valid`. -/
def MetadataRecord.Valid (r : MetadataRecord) : Bool :=
  let parts := strings.Split r.Key '/'
  if parts.length == 0 then false
  else
    match parts.getLast? with
    | none => false
    | some key =>
      r.Key == key && r.URI != "" && r.VK != "" && r.Namespace != "" && decide (r.Time > 0)

/-! ## Expressions -/

/-- The interface `Node`: its one method `Eval`, taken as a pure predicate. -/
structure Node where
  Eval : MetadataRecord → Bool

/-- The type `Expression`, through the two fields this file reads. -/
structure Expression where
  NamespaceList : List String
  N : Node

structure queryContext where
  namespaces : GoMap Unit
  matched : List MetadataRecord

def newQueryContext (expr : Expression) : queryContext :=
  { namespaces := expr.NamespaceList.foldl (fun m ns => m.insert ns ()) ∅
    matched := [] }

def queryContext.hasNamespace (ctx : queryContext) (ns : String) : Bool :=
  (ctx.namespaces.lookup ns).isSome

/-! ## The in-memory metadata index -/

structure memoryMetadataDB where
  records : GoMap MetadataRecord

def CreateSmallMetadataDB : memoryMetadataDB :=
  { records := ∅ }

/-- Errors the embedded functions return. -/
inductive GoError where
  | invalidRecord (r : MetadataRecord)
  | transport (msg : String)
deriving DecidableEq, Repr

/-- Go `(*memoryMetadataDB).Insert`: the returned error and the index after the call.
The argument `none` is the nil pointer. -/
def memoryMetadataDB.Insert (mm : memoryMetadataDB) (rec : Option MetadataRecord) :
    Option GoError × memoryMetadataDB :=
  match rec with
  | none => (none, mm)
  | some r =>
    if !r.Valid then (some (GoError.invalidRecord r), mm)
    else if (mm.records.lookup r.URI).isSome && r.Value.length == 0 then
      (none, { records := mm.records.erase r.URI })
    else
      (none, { records := mm.records.insert r.URI r })

/-- One iteration of the loop of `getNode`. -/
def getNodeStep (ctx : queryContext) (n : Node) (matched : List MetadataRecord)
    (r : MetadataRecord) : List MetadataRecord :=
  if !ctx.hasNamespace r.Namespace then matched
  else if n.Eval r then matched ++ [r]
  else matched

/-- Go `(*memoryMetadataDB).getNode`: the matched records and the index after the call. -/
def memoryMetadataDB.getNode (mm : memoryMetadataDB) (ctx : queryContext) (n : Node) :
    List MetadataRecord × memoryMetadataDB :=
  (mm.records.entries.foldl (fun matched e => getNodeStep ctx n matched e.2) [], mm)

/-- Go `(*memoryMetadataDB).Exec`. -/
def memoryMetadataDB.Exec (mm : memoryMetadataDB) (expr : Expression) :
    List MetadataRecord × memoryMetadataDB :=
  let ctx := newQueryContext expr
  mm.getNode ctx expr.N

/-- Index states the program can be in: the empty index and whatever `Insert` makes of one. -/
inductive Reachable : memoryMetadataDB → Prop where
  | init : Reachable CreateSmallMetadataDB
  | step (mm : memoryMetadataDB) (rec : Option MetadataRecord) :
      Reachable mm → Reachable (mm.Insert rec).2

/-- Every stored record is filed under its own `URI`. -/
def KeyedByURI (mm : memoryMetadataDB) : Prop :=
  ∀ u x, mm.records.lookup u = some x → x.URI = u

/-! ## The record extractor -/

/-- The value `GetRecords` gives a record: lines 49 to 59 of the source. The result `none`
is the out-of-range read of `msg.POs[0]`. -/
def GetRecords.value (msg : SimpleMessage) : Option (List Nat) :=
  match msg.GetOnePODF with
  | some p =>
    if p.isMetadataPO then
      match p.metaValue with
      | some val => some val
      | none => some p.contents
    else (msg.POs.head?).map PayloadObject.contents
  | none => (msg.POs.head?).map PayloadObject.contents

/-- The loop of `GetRecords` over the payload objects still to visit; `i` counts the
iterations done and `now i` is the clock reading of iteration `i`. -/
def GetRecords.loop (now : Nat → Int) (msg : SimpleMessage) (parts : List String)
    (uri : String) : List PayloadObject → Nat → List MetadataRecord →
    Option (List MetadataRecord)
  | [], _, records => some records
  | _ :: rest, i, records =>
    match parts.getLast?, parts.head?, GetRecords.value msg with
    | some key, some ns, some val =>
      GetRecords.loop now msg parts uri rest (i + 1)
        (records ++ [{ Key := key, Namespace := ns, URI := uri, VK := msg.From,
                       Time := now i, Msg := some msg, Value := val }])
    | _, _, _ => none

/-- Go `GetRecords`. The result `none` is a panic: the slice `parts[:len(parts)-2]` with a
negative bound, or an index out of range. -/
def GetRecords (now : Nat → Int) (msg : SimpleMessage) : Option (List MetadataRecord) :=
  let parts := strings.Split msg.URI '/'
  if parts.length < 2 then none
  else
    let uri := strings.Join (parts.take (parts.length - 2)) "/" ++ "/*"
    GetRecords.loop now msg parts uri msg.POs 0 []

/-! ## The view manager

The types `View` and `forwarder`, and the functions `_setMatchSetTo`, `newForwarder`,
`addViews`, `removeViews` and `send`, are declared in files of the package other than
`manager.go`. They are taken as parameters (`Ops`). A forwarder function acts on the
forwarder it is called on; `_setMatchSetTo` acts on the view it is called on.
Locks are not modelled: the functions run one at a time. -/

/-- A pointer to a `View`: an index into the heap of views. -/
abbrev ViewId := Nat

/-- The type `View`, through the two fields `manager.go` reads and writes. -/
structure View where
  Expr : Expression
  MatchSet : GoMap Bool

/-- A channel returned by `client.Subscribe`, named by the topic and by the number of
`Subscribe` calls made before the one that returned it. -/
structure Subscription where
  URI : String
  serial : Nat
deriving DecidableEq, Repr

/-- The transport client. `Subscribe` gives the result for a topic, given the topics of
the `Subscribe` calls made before. `ResolveRegistry` gives the key a namespace resolves
to, as the base64 text `subscribeNamespaces` makes of it. `Query` gives whether the query
on a topic succeeds. -/
structure BW2Client where
  Subscribe : List String → String → Except GoError Subscription
  ResolveRegistry : String → Except GoError String
  Query : String → Except GoError Unit

/-- The functions of the package that `manager.go` calls and does not declare, over a type
`F` of forwarders. -/
structure Ops (F : Type) where
  newForwarder : Subscription → String → F
  addViews : F → List ViewId → F
  removeViews : F → List ViewId → F
  send : F → Option SimpleMessage → F
  setMatchSetTo : View → Bool → View
  hash : Expression → String

/-- The type `ViewManager`. The field `views` is the heap the `*View` pointers point into;
`subscribeCalls` records the topics passed to `client.Subscribe`, oldest first;
`namespaceCalls` records, oldest first, each namespace for which `subscribeNamespaces`
called `client.Subscribe`, with the topic it passed. -/
structure ViewManager (F : Type) where
  db : memoryMetadataDB
  namespaceAliases : GoMap String
  namespaceSubscriptions : GoMap Subscription
  expressions : GoMap (List ViewId)
  forwarders : GoMap F
  views : ViewId → View
  subscribeCalls : List String
  namespaceCalls : List (String × String)

/-- The assignment `v.MatchSet[uri] = true` on the view `v` points to. -/
def setMatch (uri : String) (heap : ViewId → View) (v : ViewId) : ViewId → View :=
  Function.update heap v { heap v with MatchSet := (heap v).MatchSet.insert uri true }

/-- The loop `for _, v := range views { v.MatchSet[uri] = true }`. -/
def setMatchAll (uri : String) (views : List ViewId) (heap : ViewId → View) :
    ViewId → View :=
  views.foldl (setMatch uri) heap

/-- Lines 250 to 256 of `startForwarding`, where `f` is `vm.forwarders[uri]`. -/
def ViewManager.registerViews {F : Type} (ops : Ops F) (vm : ViewManager F) (uri : String)
    (f : F) (views : List ViewId) : ViewManager F :=
  { vm with
    forwarders := vm.forwarders.insert uri (ops.addViews f views)
    views := setMatchAll uri views vm.views }

/-- Go `(*ViewManager).startForwarding`: the returned error and the state after the call. -/
def ViewManager.startForwarding {F : Type} (ops : Ops F) (client : BW2Client)
    (vm : ViewManager F) (uri : String) (views : List ViewId) :
    Option GoError × ViewManager F :=
  match vm.forwarders.lookup uri with
  | none =>
    match client.Subscribe vm.subscribeCalls uri with
    | Except.error err =>
      (some err, { vm with subscribeCalls := vm.subscribeCalls ++ [uri] })
    | Except.ok subscription =>
      (none,
        ViewManager.registerViews ops
          { vm with
            subscribeCalls := vm.subscribeCalls ++ [uri]
            forwarders := vm.forwarders.insert uri (ops.newForwarder subscription uri) }
          uri (ops.newForwarder subscription uri) views)
  | some f => (none, ViewManager.registerViews ops vm uri f views)

/-- Go `(*ViewManager).stopForwarding`. -/
def ViewManager.stopForwarding {F : Type} (ops : Ops F) (vm : ViewManager F) (uri : String)
    (views : List ViewId) : ViewManager F :=
  match vm.forwarders.lookup uri with
  | some forwarder =>
    { vm with forwarders := vm.forwarders.insert uri (ops.removeViews forwarder views) }
  | none => vm

/-- The loop of `checkViews` over the records of `matching` (lines 280 to 299);
`view` is `viewList[0]`. The result `none` is the call of `send` on a nil forwarder. -/
def checkViews.matchLoop {F : Type} (ops : Ops F) (client : BW2Client)
    (viewList : List ViewId) (view : ViewId) :
    List MetadataRecord → ViewManager F → Option (ViewManager F)
  | [], vm => some vm
  | r :: rest, vm =>
    if !((vm.views view).MatchSet.lookup r.URI).isSome then
      match vm.startForwarding ops client r.URI viewList with
      | (some _, vm1) => checkViews.matchLoop ops client viewList view rest vm1
      | (none, vm1) =>
        match vm1.forwarders.lookup r.URI with
        | none => none
        | some f =>
          checkViews.matchLoop ops client viewList view rest
            { vm1 with
              forwarders := vm1.forwarders.insert r.URI (ops.send f r.Msg)
              views := setMatchAll r.URI viewList vm1.views }
    else
      checkViews.matchLoop ops client viewList view rest
        { vm with views := setMatchAll r.URI viewList vm.views }

/-- The loop of `checkViews` over `view.MatchSet` (lines 301 to 305). -/
def checkViews.stopLoop {F : Type} (ops : Ops F) (viewList : List ViewId)
    (entries : List (Sigma (fun _ : String => Bool))) (vm : ViewManager F) :
    ViewManager F :=
  entries.foldl
    (fun vm e => if !e.2 then vm.stopForwarding ops e.1 viewList else vm) vm

/-- The body of the loop of `checkViews` over `vm.expressions`, for one list of views.
The result `none` is a panic: `viewList[0]` on an empty list, or `send` on a nil
forwarder. -/
def checkViews.group {F : Type} (ops : Ops F) (client : BW2Client) (vm : ViewManager F)
    (viewList : List ViewId) : Option (ViewManager F) :=
  match viewList with
  | [] => none
  | view :: _ =>
    let matching := (vm.db.Exec (vm.views view).Expr).1
    let vm0 := { vm with db := (vm.db.Exec (vm.views view).Expr).2 }
    let vm1 := { vm0 with
      views := viewList.foldl
        (fun heap v => Function.update heap v (ops.setMatchSetTo (heap v) false)) vm0.views }
    match checkViews.matchLoop ops client viewList view matching vm1 with
    | none => none
    | some vm2 =>
      some (checkViews.stopLoop ops viewList (vm2.views view).MatchSet.entries vm2)

/-- The pass of `checkViews` over the lists of views `groups`, in list order. -/
def checkViews.groups {F : Type} (ops : Ops F) (client : BW2Client) :
    List (List ViewId) → ViewManager F → Option (ViewManager F)
  | [], vm => some vm
  | viewList :: rest, vm =>
    match checkViews.group ops client vm viewList with
    | none => none
    | some vm1 => checkViews.groups ops client rest vm1

/-- Go `(*ViewManager).checkViews`. -/
def ViewManager.checkViews {F : Type} (ops : Ops F) (client : BW2Client)
    (vm : ViewManager F) : Option (ViewManager F) :=
  checkViews.groups ops client (vm.expressions.entries.map (fun e => e.2)) vm

/-! ## Archive requests (`plugins/bosswave/archive.go`) -/

namespace strings

/-- Go `strings.TrimSuffix(s, suffix)`. -/
def TrimSuffix (s suffix : String) : String :=
  if suffix.data.isSuffixOf s.data then
    String.mk (s.data.take (s.data.length - suffix.data.length))
  else s

end strings

/-- The type `ArchiveRequest`, through its exported fields. The lock and the parsed
operations are left out. -/
structure ArchiveRequest where
  FromVK : String
  URI : String
  PO : Int
  UUID : String
  Value : String
  Time : String
  TimeParse : String
  InheritMetadata : Bool
  MetadataURIs : List String
  MetadataBlock : String
  MetadataExpr : String
deriving DecidableEq, Repr

/-- Go `(*ArchiveRequest).Hash`. The function `bw.PONumDotForm` of package `bw2bind` is
the parameter `dotForm`. -/
def ArchiveRequest.Hash (dotForm : Int → String) (req : ArchiveRequest) : String :=
  req.URI ++ dotForm req.PO ++ req.UUID ++ req.Value

/-- The calls of package `bw2bind` that `ExtractArchiveRequests` makes on a payload
object. -/
structure ArchiveCodec where
  /-- Result of `po.IsTypeDF(GilesArchiveRequestPIDString)`. -/
  isArchiveRequestDF : PayloadObject → Bool
  /-- Whether the dynamic type is `bw.MsgPackPayloadObject`. -/
  isMsgPack : PayloadObject → Bool
  /-- Result of `ValueInto(request)` on a new request: the request as decoded, or an
  error. -/
  valueInto : PayloadObject → Except String ArchiveRequest

/-- The body of the loop of `ExtractArchiveRequests` for one payload object. The result
`none` is the panic of the type assertion. -/
def ExtractArchiveRequests.step (codec : ArchiveCodec) (msg : SimpleMessage)
    (requests : List ArchiveRequest) (po : PayloadObject) : Option (List ArchiveRequest) :=
  if !codec.isArchiveRequestDF po then some requests
  else if !codec.isMsgPack po then none
  else
    match codec.valueInto po with
    | Except.error _ => some requests
    | Except.ok request =>
      if request.PO == 0 then some requests
      else if request.Value == "" then some requests
      else
        let request1 := { request with FromVK := msg.From }
        let request2 :=
          if request1.URI == "" then
            { request1 with
              URI := strings.TrimSuffix (strings.TrimSuffix request1.URI "!meta/giles") "/" }
          else request1
        let request3 :=
          if request2.MetadataURIs.length == 0 then
            { request2 with MetadataURIs := [request2.URI] }
          else request2
        some (requests ++ [request3])

/-- The loop of `ExtractArchiveRequests` over the payload objects still to visit. -/
def ExtractArchiveRequests.loop (codec : ArchiveCodec) (msg : SimpleMessage) :
    List PayloadObject → List ArchiveRequest → Option (List ArchiveRequest)
  | [], requests => some requests
  | po :: rest, requests =>
    match ExtractArchiveRequests.step codec msg requests po with
    | none => none
    | some requests1 => ExtractArchiveRequests.loop codec msg rest requests1

/-- Go `(*BOSSWaveHandler).ExtractArchiveRequests`. -/
def ExtractArchiveRequests (codec : ArchiveCodec) (msg : SimpleMessage) :
    Option (List ArchiveRequest) :=
  ExtractArchiveRequests.loop codec msg msg.POs []

/-! ## The archiver (`archiver/archiver.go`) -/

/-- How a call ends: it returns, it panics, or `log.Fatal` ends the process. -/
inductive Outcome (α : Type) where
  | returned (value : α)
  | panicked
  | exited
deriving DecidableEq, Repr

/-- The fields of `Config` that `NewArchiver` reads. A pointer field is an `Option`. -/
structure Config where
  ArchiverMetadataStore : Option String
  ArchiverEnforceKeys : Bool
  MongoAddress : Option String
  MongoPort : Option String
deriving DecidableEq, Repr

/-- The type `mongoConfig`, over the type `A` of resolved addresses. -/
structure mongoConfig (A : Type) where
  address : A
  enforceKeys : Bool

/-- The type `Archiver`, over the types of its two stores; a nil store is `none`. -/
structure Archiver (T M : Type) where
  tsStore : Option T
  mdStore : Option M

/-- The assignment `a.mdStore = mdStore` through the pointer `a`. -/
def Archiver.setMdStore {T M : Type} (a : Option (Archiver T M)) (mdStore : Option M) :
    Outcome (Option (Archiver T M)) :=
  match a with
  | none => Outcome.panicked
  | some arch => Outcome.returned (some { arch with mdStore := mdStore })

/-- Go `NewArchiver`. The function `net.ResolveTCPAddr` is the parameter `resolve` and
`newMongoStore`, declared outside `archiver.go`, is a parameter. The named result `a`
starts as the nil pointer. -/
def NewArchiver {A T M : Type} (resolve : String → Option A)
    (newMongoStore : mongoConfig A → M) (c : Config) : Outcome (Option (Archiver T M)) :=
  let a : Option (Archiver T M) := none
  match c.ArchiverMetadataStore with
  | none => Outcome.panicked
  | some store =>
    if store = "mongo" then
      match c.MongoAddress, c.MongoPort with
      | some address, some port =>
        match resolve (address ++ ":" ++ port) with
        | none => Outcome.exited
        | some mongoaddr =>
          let config : mongoConfig A :=
            { address := mongoaddr, enforceKeys := c.ArchiverEnforceKeys }
          Archiver.setMdStore a (some (newMongoStore config))
      | _, _ => Outcome.panicked
    else Outcome.exited

/-! ## Metadata inheritance (`archiver/message.go`) -/

structure smapProperties where
  unitOfTime : Nat
  unitOfMeasure : String
  streamType : Nat
deriving DecidableEq, Repr

def smapProperties.IsEmpty (sp : smapProperties) : Bool :=
  sp.unitOfTime == 0 && sp.unitOfMeasure == "" && sp.streamType == 0

/-- The type `Dict`: a map from strings to strings. The nil map and the empty map, which
the source reads alike, are both the empty map. -/
abbrev Dict := GoMap String

/-- The type `SmapMessage`. The field `Readings`, which metadata inheritance neither reads
nor writes, is left out. -/
structure SmapMessage where
  Path : String
  UUID : String
  Properties : smapProperties
  Actuator : Dict
  Metadata : Dict

def SmapMessage.HasMetadata (msg : SmapMessage) : Bool :=
  decide (msg.Actuator.entries.length > 0) || decide (msg.Metadata.entries.length > 0) ||
    !msg.Properties.IsEmpty

def SmapMessage.IsTimeseries (msg : SmapMessage) : Bool :=
  msg.UUID != ""

/-- The type `TieredSmapMessage`. Every entry is a non-nil pointer to a message of its
own, so an entry is the message itself. -/
abbrev TieredSmapMessage := GoMap SmapMessage

/-- Go `sort.Sort(sort.Reverse(sort.StringSlice(prefixes)))`: the strings in decreasing
order. -/
def sortReverse (prefixes : List String) : List String :=
  prefixes.insertionSort (fun a b => b.data ≤ a.data)

/-- The loop `for k, v := range src { if _, hasKey := dst[k]; !hasKey { dst[k] = v } }`
of lines 150 to 157 and 172 to 179. -/
def inheritKeys (src dst : Dict) : Dict :=
  src.entries.foldl
    (fun dst e => if (dst.lookup e.1).isSome then dst else dst.insert e.1 e.2) dst

/-- Lines 159 to 169 of `CollapseToTimeseries`. -/
def inheritProperties (src dst : smapProperties) : smapProperties :=
  if !src.IsEmpty then
    let dst1 := if dst.unitOfTime != 0 then { dst with unitOfTime := src.unitOfTime } else dst
    let dst2 :=
      if dst1.unitOfMeasure != "" then { dst1 with unitOfMeasure := src.unitOfMeasure }
      else dst1
    if dst2.streamType != 0 then { dst2 with streamType := src.streamType } else dst2
  else dst

/-- Lines 149 to 180 of `CollapseToTimeseries`: what the message `prefixMsg` contributes
to the message `msg`. -/
def applyPrefix (prefixMsg msg : SmapMessage) : SmapMessage :=
  let msg1 :=
    if prefixMsg.Metadata.entries.length > 0 then
      { msg with Metadata := inheritKeys prefixMsg.Metadata msg.Metadata }
    else msg
  let msg2 := { msg1 with Properties := inheritProperties prefixMsg.Properties msg1.Properties }
  if prefixMsg.Actuator.entries.length > 0 then
    { msg2 with Actuator := inheritKeys prefixMsg.Actuator msg2.Actuator }
  else msg2

/-- The body of the loop over `prefixes` (lines 142 to 181) for the timeseries at `path`. -/
def collapseStep (path : String) (tsm : TieredSmapMessage) (pfx : String) :
    TieredSmapMessage :=
  match tsm.lookup path with
  | none => tsm
  | some msg =>
    match tsm.lookup pfx with
    | none => tsm
    | some prefixMsg =>
      if !prefixMsg.HasMetadata then tsm
      else tsm.insert path (applyPrefix prefixMsg msg)

/-- The body of the first loop of `CollapseToTimeseries` (lines 136 to 182) for one
path. The function `getPrefixes` is declared outside `message.go` and is a parameter. -/
def collapsePath (getPrefixes : String → List String) (tsm : TieredSmapMessage)
    (path : String) : TieredSmapMessage :=
  match tsm.lookup path with
  | none => tsm
  | some msg =>
    if !msg.IsTimeseries then tsm
    else (sortReverse (getPrefixes path)).foldl (collapseStep path) tsm

/-- The second loop of `CollapseToTimeseries` (lines 185 to 189). -/
def pruneNonTimeseries (tsm : TieredSmapMessage) : TieredSmapMessage :=
  tsm.entries.foldl (fun t e => if !e.2.IsTimeseries then t.erase e.1 else t) tsm

/-- Go `(*TieredSmapMessage).CollapseToTimeseries`. The first loop visits the paths in
the order of the entries of the map. -/
def CollapseToTimeseries (getPrefixes : String → List String) (tsm : TieredSmapMessage) :
    TieredSmapMessage :=
  pruneNonTimeseries (tsm.keys.foldl (collapsePath getPrefixes) tsm)

/-- The message `m'` has the identifier of `m` and every metadata and actuator entry of
`m`. -/
def SmapMessage.ExtendedBy (m m' : SmapMessage) : Prop :=
  m'.UUID = m.UUID ∧
    (∀ k v, m.Metadata.lookup k = some v → m'.Metadata.lookup k = some v) ∧
    (∀ k v, m.Actuator.lookup k = some v → m'.Actuator.lookup k = some v)

/-- The map `t'` has the paths of `t`, each with a message that extends the one in `t`. -/
def TieredExtendedBy (t t' : TieredSmapMessage) : Prop :=
  ∀ q, (t.lookup q = none → t'.lookup q = none) ∧
    ∀ m, t.lookup q = some m → ∃ m', t'.lookup q = some m' ∧ m.ExtendedBy m'

/-- Every key of the `MatchSet` of a view in `R` has a forwarder in the map. -/
def ForwardersCover {F : Type} (R : ViewId → Prop) (vm : ViewManager F) : Prop :=
  ∀ v, R v → ∀ p, p ∈ (vm.views v).MatchSet → p ∈ vm.forwarders

/-! ## Registering a view (`Handle`)

The worker pools that `subscribeNamespaces` starts run beside `Handle` and are not part of
it; `log.Fatal` ends the process. -/

/-- The topic `subscribeNamespaces` subscribes to for a namespace (line 150). -/
def metadataTopic (ns : String) : String :=
  strings.TrimSuffix ns "/" ++ "/*/!meta/+"

/-- The body of the loop of `subscribeNamespaces` for one namespace. The result `none` is
the end of the process in `log.Fatal`. -/
def subscribeNamespaces.step {F : Type} (client : BW2Client) (vm : ViewManager F)
    (ns : String) : Option (ViewManager F) :=
  let uri := metadataTopic ns
  if (vm.namespaceSubscriptions.lookup ns).isSome then some vm
  else
    match client.ResolveRegistry ns with
    | Except.error _ => none
    | Except.ok nsvk =>
      let vm1 := { vm with namespaceAliases := vm.namespaceAliases.insert ns nsvk }
      match client.Subscribe vm1.subscribeCalls uri with
      | Except.error _ => none
      | Except.ok sub =>
        let vm2 := { vm1 with
          namespaceSubscriptions := vm1.namespaceSubscriptions.insert ns sub
          subscribeCalls := vm1.subscribeCalls ++ [uri]
          namespaceCalls := vm1.namespaceCalls ++ [(ns, uri)] }
        match client.Query uri with
        | Except.error _ => none
        | Except.ok _ => some vm2

/-- Go `(*ViewManager).subscribeNamespaces`, over the namespaces still to visit. -/
def ViewManager.subscribeNamespaces {F : Type} (client : BW2Client) :
    List String → ViewManager F → Option (ViewManager F)
  | [], vm => some vm
  | ns :: rest, vm =>
    match subscribeNamespaces.step client vm ns with
    | none => none
    | some vm1 => ViewManager.subscribeNamespaces client rest vm1

/-- Go `(*ViewManager).addView`. -/
def ViewManager.addView {F : Type} (ops : Ops F) (vm : ViewManager F) (v : ViewId) :
    ViewManager F :=
  let hash := ops.hash (vm.views v).Expr
  match vm.expressions.lookup hash with
  | some list => { vm with expressions := vm.expressions.insert hash (list ++ [v]) }
  | none => { vm with expressions := vm.expressions.insert hash [v] }

/-- The loop of `Handle` over the records `Exec` returned (lines 132 to 140). The result
`none` is the call of `send` on a nil forwarder. -/
def Handle.loop {F : Type} (ops : Ops F) (client : BW2Client) (v : ViewId) :
    List MetadataRecord → ViewManager F → Option (Option GoError × ViewManager F)
  | [], vm => some (none, vm)
  | r :: rest, vm =>
    match vm.startForwarding ops client r.URI [v] with
    | (some err, vm1) => some (some err, vm1)
    | (none, vm1) =>
      match vm1.forwarders.lookup r.URI with
      | none => none
      | some f =>
        Handle.loop ops client v rest
          { vm1 with forwarders := vm1.forwarders.insert r.URI (ops.send f r.Msg) }

/-- Go `(*ViewManager).Handle`: the returned error and the state after the call. The
result `none` is the end of the process, in `log.Fatal` or in a panic. -/
def ViewManager.Handle {F : Type} (ops : Ops F) (client : BW2Client) (vm : ViewManager F)
    (v : ViewId) : Option (Option GoError × ViewManager F) :=
  match ViewManager.subscribeNamespaces client (vm.views v).Expr.NamespaceList vm with
  | none => none
  | some vm1 =>
    let newNS := (vm1.views v).Expr.NamespaceList.map
      (fun ns => (vm1.namespaceAliases.lookup ns).getD "")
    let vm2 := { vm1 with
      views := Function.update vm1.views v
        { vm1.views v with Expr := { (vm1.views v).Expr with NamespaceList := newNS } } }
    let vm3 := vm2.addView ops v
    Handle.loop ops client v (vm3.db.Exec (vm3.views v).Expr).1
      { vm3 with db := (vm3.db.Exec (vm3.views v).Expr).2 }

/-- A sequence of `Handle` calls, one after another, on the views `vs`. -/
def HandleAll {F : Type} (ops : Ops F) (client : BW2Client) :
    List ViewId → ViewManager F → Option (ViewManager F)
  | [], vm => some vm
  | v :: vs, vm =>
    match vm.Handle ops client v with
    | none => none
    | some (_, vm1) => HandleAll ops client vs vm1

/-- The namespaces named by the expressions of the views `vs`, each read when `Handle` is
called on its view in the sequence `HandleAll`. -/
def namedBy {F : Type} (ops : Ops F) (client : BW2Client) :
    List ViewId → ViewManager F → List String
  | [], _ => []
  | v :: vs, vm =>
    (vm.views v).Expr.NamespaceList ++
      match vm.Handle ops client v with
      | none => []
      | some (_, vm1) => namedBy ops client vs vm1

/-- The record of namespace subscriptions agrees with the map of them: it names each
subscribed namespace once, no other, each with its metadata topic. -/
def NamespaceLogged {F : Type} (vm : ViewManager F) : Prop :=
  (vm.namespaceCalls.map Prod.fst).Nodup ∧
    (∀ ns, ns ∈ vm.namespaceCalls.map Prod.fst ↔ ns ∈ vm.namespaceSubscriptions) ∧
    ∀ e ∈ vm.namespaceCalls, e.2 = metadataTopic e.1

/-- The value that the messages of the map `t` at the paths `l`, taken in order, give
the metadata key `k`: that of the first message that defines it. -/
def firstDefined (t : TieredSmapMessage) (k : String) (l : List String) : Option String :=
  l.findSome? (fun q => (t.lookup q).bind (fun m => m.Metadata.lookup k))

/-- What is assumed of `getPrefixes`, declared outside `message.go`: the prefixes of a
path are pairwise distinct; of any two of them one is a string prefix of the other; and
the prefixes of a prefix `q` of `p` are the prefixes of `p` shorter than `q`. -/
def PathPrefixes (getPrefixes : String → List String) : Prop :=
  (∀ p, (getPrefixes p).Nodup) ∧
    (∀ p q q', q ∈ getPrefixes p → q' ∈ getPrefixes p →
      q.data <+: q'.data ∨ q'.data <+: q.data) ∧
    ∀ p q q', q ∈ getPrefixes p →
      (q' ∈ getPrefixes q ↔ q' ∈ getPrefixes p ∧ q'.length < q.length)

/-- A state `s` of the first loop of `CollapseToTimeseries` on the input `orig`: it has
the paths of `orig`, each with the identifier it had, and each metadata key has the value
it had in `orig` or, when it had none, the value inheritance gives it. -/
def InheritInv (getPrefixes : String → List String) (orig s : TieredSmapMessage) : Prop :=
  (∀ q, orig.lookup q = none → s.lookup q = none) ∧
    ∀ q m0, orig.lookup q = some m0 →
      ∃ m, s.lookup q = some m ∧ m.UUID = m0.UUID ∧
        ∀ k, m.Metadata.lookup k = m0.Metadata.lookup k ∨
          (m0.Metadata.lookup k = none ∧
            m.Metadata.lookup k = firstDefined orig k (sortReverse (getPrefixes q)))

/-- The path `p` has been visited: each metadata key of its message has the value it had
in `orig` or, when it had none, the value inheritance gives it. -/
def InheritDone (getPrefixes : String → List String) (orig s : TieredSmapMessage)
    (p : String) : Prop :=
  ∀ m0, orig.lookup p = some m0 →
    ∃ m, s.lookup p = some m ∧
      ∀ k, m.Metadata.lookup k
        = (m0.Metadata.lookup k).or (firstDefined orig k (sortReverse (getPrefixes p)))

/-! ## Flattening nested dictionaries (`archiver/util.go`) -/

/-- A value stored in a `bson.M` that is not a dictionary: `flatten` copies it as it
is. -/
inductive BsonScalar where
  | str (s : String)
  | num (n : Int)
  | bool (b : Bool)
  | null
  deriving DecidableEq, Repr

mutual
/-- A value stored in a `bson.M`, by its dynamic type: `dict` is a dictionary of dynamic
type `map[string]interface{}`, the type the assertion at line 13 tests for; `nested` is a
dictionary of dynamic type `bson.M`, the type of the argument of `flatten` itself, on which
that assertion fails; `leaf` is any value that is not a dictionary. -/
inductive BsonValue where
  | leaf (v : BsonScalar)
  | dict (m : BsonM)
  | nested (m : BsonM)
/-- The entries of a `bson.M` or of a `map[string]interface{}`, in the order a `range`
loop visits them. Nesting is finite: no dictionary holds itself. -/
inductive BsonM where
  | nil
  | cons (k : String) (v : BsonValue) (rest : BsonM)
end

/-- The content of a value that is not a dictionary. -/
def BsonValue.content : BsonValue → Option BsonScalar
  | BsonValue.leaf v => some v
  | BsonValue.dict _ => none
  | BsonValue.nested _ => none

/-- Whether a value is a dictionary, of either dynamic type. -/
def BsonValue.isDictionary : BsonValue → Bool
  | BsonValue.leaf _ => false
  | BsonValue.dict _ => true
  | BsonValue.nested _ => true

mutual
/-- The body of the loop of `flatten` (lines 13 to 19) for the entry `k`, `v`: the
assertion `v.(map[string]interface{})` holds for `dict` alone, and every other value is
stored under `k` as it is. -/
def flatten.entry (ret : GoMap BsonValue) (k : String) : BsonValue → GoMap BsonValue
  | BsonValue.leaf x => ret.insert k (BsonValue.leaf x)
  | BsonValue.dict vb =>
    (flatten.loop ∅ vb).entries.foldl (fun r e => r.insert (k ++ "." ++ e.1) e.2) ret
  | BsonValue.nested vb => ret.insert k (BsonValue.nested vb)
/-- The loop of `flatten` over the entries still to visit; `ret` is the map built so
far. -/
def flatten.loop (ret : GoMap BsonValue) : BsonM → GoMap BsonValue
  | BsonM.nil => ret
  | BsonM.cons k v rest => flatten.loop (flatten.entry ret k v) rest
end

/-- Go `flatten`. -/
def flatten (m : BsonM) : GoMap BsonValue :=
  flatten.loop ∅ m

mutual
/-- The chains of keys that lead from the entry `k`, `v` to a value that is not a
dictionary, each as its dotted key with that value. -/
def chainsOfEntry (k : String) : BsonValue → List (String × BsonScalar)
  | BsonValue.leaf x => [(k, x)]
  | BsonValue.dict m => (chainsOf m).map (fun e => (k ++ "." ++ e.1, e.2))
  | BsonValue.nested m => (chainsOf m).map (fun e => (k ++ "." ++ e.1, e.2))
/-- The chains of keys `k1, ..., kn` of a dictionary that lead to a value that is not a
dictionary, each as the dotted key `k1.k2...kn` with that value. -/
def chainsOf : BsonM → List (String × BsonScalar)
  | BsonM.nil => []
  | BsonM.cons k v rest => chainsOfEntry k v ++ chainsOf rest
end

mutual
/-- Every dictionary inside the value has the dynamic type `map[string]interface{}`. -/
def BsonValue.plain : BsonValue → Bool
  | BsonValue.leaf _ => true
  | BsonValue.dict m => BsonM.plain m
  | BsonValue.nested _ => false
/-- Every dictionary stored inside the dictionary, at any depth, has the dynamic type
`map[string]interface{}`. -/
def BsonM.plain : BsonM → Bool
  | BsonM.nil => true
  | BsonM.cons _ v rest => BsonValue.plain v && BsonM.plain rest
end

/-! ## Sample inputs -/

/-- A record as `GetRecords` files it: leaf key `giles`, wildcard-suffixed path. -/
def sampleRecord : MetadataRecord :=
  { Key := "giles", Value := [1], Namespace := "ns", URI := "ns/dev/*", VK := "vk",
    Time := 1, Msg := none }

/-- The record `sampleRecord` with an empty value. -/
def sampleTombstone : MetadataRecord :=
  { sampleRecord with Value := [] }

/-- A record whose key holds a slash. -/
def sampleInvalid : MetadataRecord :=
  { sampleRecord with Key := "a/b" }

/-- An expression on namespace `ns` that accepts every record. -/
def sampleExpression : Expression :=
  { NamespaceList := ["ns"], N := { Eval := fun _ => true } }

/-- A metadata message on topic `ns/dev/!meta/giles` with one payload object. -/
def sampleMessage : SimpleMessage :=
  { URI := "ns/dev/!meta/giles", From := "vk",
    POs := [{ contents := [1], isMetadataDF := false, isMetadataPO := false,
              metaValue := none }] }

/-- A forwarder that records its channel, its path, the views registered on it and the
messages sent through it. -/
structure sampleForwarder where
  subscription : Subscription
  uri : String
  views : List ViewId
  sent : List (Option SimpleMessage)
deriving DecidableEq, Repr

/-- Functions over `sampleForwarder`; `setMatchSetTo` assigns the value to every key of
the `MatchSet`. -/
def sampleOps : Ops sampleForwarder :=
  { newForwarder := fun sub uri => { subscription := sub, uri := uri, views := [], sent := [] }
    addViews := fun f vs => { f with views := f.views ++ vs }
    removeViews := fun f vs => { f with views := f.views.filter (fun v => !vs.contains v) }
    send := fun f m => { f with sent := f.sent ++ [m] }
    setMatchSetTo := fun w b =>
      { w with MatchSet := w.MatchSet.keys.foldl (fun m k => m.insert k b) w.MatchSet }
    hash := fun expr => String.intercalate "," expr.NamespaceList }

/-- A client whose `Subscribe` always succeeds. -/
def sampleClient : BW2Client :=
  { Subscribe := fun log uri => Except.ok { URI := uri, serial := log.length }
    ResolveRegistry := fun ns => Except.ok ("vk-" ++ ns)
    Query := fun _ => Except.ok () }

/-- A client whose `Subscribe` always fails. -/
def failingClient : BW2Client :=
  { Subscribe := fun _ _ => Except.error (GoError.transport "down")
    ResolveRegistry := fun _ => Except.error (GoError.transport "down")
    Query := fun _ => Except.error (GoError.transport "down") }

/-- A manager whose index holds `sampleRecord`, with one view, at address 0, registered
under the hash `h0`, and no forwarder. -/
def sampleManager : ViewManager sampleForwarder :=
  { db := (CreateSmallMetadataDB.Insert (some sampleRecord)).2
    namespaceAliases := ∅
    namespaceSubscriptions := ∅
    expressions := AList.insert "h0" [0] ∅
    forwarders := ∅
    views := fun _ => { Expr := sampleExpression, MatchSet := ∅ }
    subscribeCalls := []
    namespaceCalls := [] }

/-- Two requests that differ in `UUID` and `Value` only. -/
def sampleRequestA : ArchiveRequest :=
  { FromVK := "vk", URI := "a/b", PO := 1, UUID := "x", Value := "yz", Time := "",
    TimeParse := "", InheritMetadata := false, MetadataURIs := [], MetadataBlock := "",
    MetadataExpr := "" }

/-- The request `sampleRequestA` with one character moved from `Value` to `UUID`. -/
def sampleRequestB : ArchiveRequest :=
  { sampleRequestA with UUID := "xy", Value := "z" }

/-- A codec under which every payload object is an archive request in MsgPack form that
decodes to a request with payload object number 1, value expression `v` and no `URI`. -/
def sampleCodec : ArchiveCodec :=
  { isArchiveRequestDF := fun _ => true
    isMsgPack := fun _ => true
    valueInto := fun _ =>
      Except.ok { FromVK := "", URI := "", PO := 1, UUID := "", Value := "v", Time := "",
                  TimeParse := "", InheritMetadata := false, MetadataURIs := [],
                  MetadataBlock := "", MetadataExpr := "" } }

/-- A message published on `a/b/!meta/giles` with one payload object. -/
def sampleArchiveMessage : SimpleMessage :=
  { URI := "a/b/!meta/giles", From := "vk",
    POs := [{ contents := [], isMetadataDF := false, isMetadataPO := false,
              metaValue := none }] }

/-- A configuration that names the `mongo` metadata store. -/
def sampleConfig : Config :=
  { ArchiverMetadataStore := some "mongo", ArchiverEnforceKeys := false,
    MongoAddress := some "localhost", MongoPort := some "27017" }

/-- The proper path prefixes of the paths `/a/b` and `/a`, and none for any other path. -/
def samplePrefixes (path : String) : List String :=
  if path = "/a/b" then ["/", "/a"] else if path = "/a" then ["/"] else []

/-- The message at `/a`: no identifier, metadata `units = W`, unit of measure `W`. -/
def sampleParent : SmapMessage :=
  { Path := "/a", UUID := "",
    Properties := { unitOfTime := 0, unitOfMeasure := "W", streamType := 0 },
    Actuator := ∅, Metadata := AList.insert "units" "W" ∅ }

/-- A timeseries at `/a/b` that sets no property and no metadata. -/
def sampleChildBare : SmapMessage :=
  { Path := "/a/b", UUID := "u1",
    Properties := { unitOfTime := 0, unitOfMeasure := "", streamType := 0 },
    Actuator := ∅, Metadata := ∅ }

/-- A timeseries at `/a/b` with unit of measure `kW` and metadata `units = kW`. -/
def sampleChildSet : SmapMessage :=
  { Path := "/a/b", UUID := "u1",
    Properties := { unitOfTime := 0, unitOfMeasure := "kW", streamType := 0 },
    Actuator := ∅, Metadata := AList.insert "units" "kW" ∅ }

/-- The map with `sampleParent` at `/a` and `sampleChildBare` at `/a/b`. -/
def sampleTieredBare : TieredSmapMessage :=
  AList.insert "/a/b" sampleChildBare (AList.insert "/a" sampleParent ∅)

/-- The map with `sampleParent` at `/a` and `sampleChildSet` at `/a/b`. -/
def sampleTieredSet : TieredSmapMessage :=
  AList.insert "/a/b" sampleChildSet (AList.insert "/a" sampleParent ∅)

/-- The manager `sampleManager` where the view at address 1 names the namespaces `ns`
and `other`. -/
def sampleManagerTwo : ViewManager sampleForwarder :=
  { sampleManager with
    expressions := ∅
    views := fun v =>
      if v = 1 then
        { Expr := { NamespaceList := ["ns", "other"], N := { Eval := fun _ => true } },
          MatchSet := ∅ }
      else { Expr := sampleExpression, MatchSet := ∅ } }

/-- The manager `sampleManager` with no view registered yet, where the view at address 0
names the namespace `ns` and the view at address 1 names it as `ns/`. -/
def sampleManagerSlash : ViewManager sampleForwarder :=
  { sampleManager with
    expressions := ∅
    views := fun v =>
      if v = 1 then
        { Expr := { NamespaceList := ["ns/"], N := { Eval := fun _ => true } },
          MatchSet := ∅ }
      else { Expr := sampleExpression, MatchSet := ∅ } }

/-- The message at the root: no identifier, metadata `units = V`. -/
def sampleRoot : SmapMessage :=
  { Path := "/", UUID := "",
    Properties := { unitOfTime := 0, unitOfMeasure := "", streamType := 0 },
    Actuator := ∅, Metadata := AList.insert "units" "V" ∅ }

/-- The map with `sampleRoot` at the root, `sampleParent` at `/a` and `sampleChildBare`
at `/a/b`. -/
def sampleTieredDeep : TieredSmapMessage :=
  AList.insert "/a/b" sampleChildBare
    (AList.insert "/" sampleRoot (AList.insert "/a" sampleParent ∅))

/-- A message on a topic with no slash and no payload object. -/
def sampleMessageFlat : SimpleMessage :=
  { URI := "giles", From := "vk", POs := [] }

/-- The message at the root: no identifier, unit of time 1 and no unit of measure. -/
def sampleRootTimed : SmapMessage :=
  { Path := "/", UUID := "",
    Properties := { unitOfTime := 1, unitOfMeasure := "", streamType := 0 },
    Actuator := ∅, Metadata := ∅ }

/-- A timeseries at `/a` with unit of measure `kW` and nothing else. -/
def sampleMiddle : SmapMessage :=
  { Path := "/a", UUID := "u0",
    Properties := { unitOfTime := 0, unitOfMeasure := "kW", streamType := 0 },
    Actuator := ∅, Metadata := ∅ }

/-- A timeseries at `/a/b` with unit of time 7 and unit of measure `x`. -/
def sampleLeaf : SmapMessage :=
  { Path := "/a/b", UUID := "u1",
    Properties := { unitOfTime := 7, unitOfMeasure := "x", streamType := 0 },
    Actuator := ∅, Metadata := ∅ }

/-- The map of `sampleRootTimed`, `sampleMiddle` and `sampleLeaf`, with the entry at `/a/b`
visited before the one at `/a`. -/
def sampleTieredLeafFirst : TieredSmapMessage :=
  AList.insert "/a/b" sampleLeaf
    (AList.insert "/a" sampleMiddle (AList.insert "/" sampleRootTimed ∅))

/-- The same map with the entry at `/a` visited before the one at `/a/b`. -/
def sampleTieredMiddleFirst : TieredSmapMessage :=
  AList.insert "/a" sampleMiddle
    (AList.insert "/a/b" sampleLeaf (AList.insert "/" sampleRootTimed ∅))
/-- The manager `sampleManager` after a `checkViews` pass, the deletion of `sampleRecord`
by `sampleTombstone` and a second pass. -/
def sampleSecondPass : Option (ViewManager sampleForwarder) :=
  (sampleManager.checkViews sampleOps sampleClient).bind
    (fun vm1 =>
      ViewManager.checkViews sampleOps sampleClient
        { vm1 with db := (vm1.db.Insert (some sampleTombstone)).2 })

/-- The manager `sampleSecondPass` after `sampleRecord` is inserted again and a third pass
runs. -/
def sampleThirdPass : Option (ViewManager sampleForwarder) :=
  sampleSecondPass.bind
    (fun vm2 =>
      ViewManager.checkViews sampleOps sampleClient
        { vm2 with db := (vm2.db.Insert (some sampleRecord)).2 })

/-- The dictionary `{a: {b: 1, c: {d: 2}, f: {}}, e: 3}`, each inner dictionary a
`map[string]interface{}`. -/
def sampleNested : BsonM :=
  BsonM.cons "a"
    (BsonValue.dict
      (BsonM.cons "b" (BsonValue.leaf (BsonScalar.str "1"))
        (BsonM.cons "c"
          (BsonValue.dict (BsonM.cons "d" (BsonValue.leaf (BsonScalar.num 2)) BsonM.nil))
          (BsonM.cons "f" (BsonValue.dict BsonM.nil) BsonM.nil))))
    (BsonM.cons "e" (BsonValue.leaf (BsonScalar.str "3")) BsonM.nil)

/-- The dictionary `bson.M{"a": bson.M{"b": "1"}, "e": "3"}`. -/
def sampleNestedBsonM : BsonM :=
  BsonM.cons "a"
    (BsonValue.nested (BsonM.cons "b" (BsonValue.leaf (BsonScalar.str "1")) BsonM.nil))
    (BsonM.cons "e" (BsonValue.leaf (BsonScalar.str "3")) BsonM.nil)

/-! ## Lemmas on `strings.Split` -/

theorem splitOn_ne_nil (sep : Char) (l : List Char) : splitOn sep l ≠ [] := by
  cases l with
  | nil => simp [splitOn]
  | cons c cs =>
    unfold splitOn
    split
    · simp
    · split <;> simp

theorem splitOn_of_not_mem (sep : Char) (l : List Char) (h : sep ∉ l) :
    splitOn sep l = [l] := by
  induction l with
  | nil => simp [splitOn]
  | cons c cs ih =>
    have hc : ¬ c = sep := fun e => h (by simp [e])
    have hcs : sep ∉ cs := fun e => h (by simp [e])
    unfold splitOn
    rw [if_neg hc, ih hcs]

theorem not_mem_of_mem_splitOn (sep : Char) (l : List Char) :
    ∀ t ∈ splitOn sep l, sep ∉ t := by
  induction l with
  | nil => simp [splitOn]
  | cons c cs ih =>
    intro t ht
    unfold splitOn at ht
    split at ht
    · rcases List.mem_cons.1 ht with h | h
      · simp [h]
      · exact ih t h
    · rename_i hc
      split at ht
      · rename_i hnil
        exact absurd hnil (splitOn_ne_nil sep cs)
      · rename_i p ps hps
        rcases List.mem_cons.1 ht with h | h
        · subst h
          have hp : sep ∉ p := ih p (by simp [hps])
          intro hmem
          rcases List.mem_cons.1 hmem with h1 | h1
          · exact hc h1.symm
          · exact hp h1
        · exact ih t (by simp [hps, h])

theorem Split_getLast_eq_self_iff (s : String) :
    (strings.Split s '/').getLast? = some s ↔ '/' ∉ s.data := by
  constructor
  · intro h
    have hmem : s ∈ strings.Split s '/' := List.mem_of_getLast?_eq_some h
    unfold strings.Split at hmem
    rcases List.mem_map.1 hmem with ⟨t, ht, hts⟩
    have : s.data = t := by rw [← hts]
    rw [this]
    exact not_mem_of_mem_splitOn '/' s.data t ht
  · intro h
    unfold strings.Split
    rw [splitOn_of_not_mem '/' s.data h]
    rfl

/-! ## Lemmas on the index -/

theorem keyedByURI_Insert (mm : memoryMetadataDB) (rec : Option MetadataRecord)
    (h : KeyedByURI mm) : KeyedByURI (mm.Insert rec).2 := by
  unfold memoryMetadataDB.Insert
  cases rec with
  | none => exact h
  | some r =>
    dsimp only
    split
    · exact h
    · split
      · intro u x hx
        dsimp only at hx
        by_cases hu : u = r.URI
        · subst hu
          simp at hx
        · rw [AList.lookup_erase_ne hu] at hx
          exact h u x hx
      · intro u x hx
        dsimp only at hx
        by_cases hu : u = r.URI
        · subst hu
          rw [AList.lookup_insert] at hx
          cases hx
          rfl
        · rw [AList.lookup_insert_ne hu] at hx
          exact h u x hx

theorem keyedByURI_of_reachable (mm : memoryMetadataDB) (h : Reachable mm) :
    KeyedByURI mm := by
  induction h with
  | init =>
    intro u x hx
    simp [CreateSmallMetadataDB] at hx
  | step mm rec _ ih => exact keyedByURI_Insert mm rec ih

theorem values_nodup_of_keyedByURI (mm : memoryMetadataDB) (h : KeyedByURI mm) :
    (mm.records.entries.map (fun e => e.2)).Nodup := by
  have hk : (mm.records.entries.map (fun e => e.2)).map MetadataRecord.URI
      = mm.records.keys := by
    rw [List.map_map]
    apply List.map_congr_left
    intro e he
    cases e with
    | mk u x =>
      exact h u x (AList.mem_lookup_iff.2 he)
  exact List.Nodup.of_map MetadataRecord.URI (hk ▸ mm.records.keys_nodup)

theorem getNode_foldl (ctx : queryContext) (n : Node)
    (l : List (Sigma (fun _ : String => MetadataRecord))) (acc : List MetadataRecord) :
    l.foldl (fun matched e => getNodeStep ctx n matched e.2) acc
      = acc ++ (l.map (fun e => e.2)).filter
          (fun r => ctx.hasNamespace r.Namespace && n.Eval r) := by
  induction l generalizing acc with
  | nil => simp
  | cons e es ih =>
    rw [List.foldl_cons, ih]
    unfold getNodeStep
    cases h1 : ctx.hasNamespace e.2.Namespace <;> cases h2 : n.Eval e.2 <;>
      simp [List.filter_cons, h1, h2]

theorem hasNamespace_foldl (l : List String) (m : GoMap Unit) (ns : String) :
    (AList.lookup ns (l.foldl (fun m ns => m.insert ns ()) m)).isSome = true
      ↔ ns ∈ l ∨ ns ∈ m := by
  induction l generalizing m with
  | nil => simp [AList.lookup_isSome]
  | cons a as ih =>
    rw [List.foldl_cons, ih, AList.mem_insert, List.mem_cons]
    tauto

theorem hasNamespace_newQueryContext (expr : Expression) (ns : String) :
    (newQueryContext expr).hasNamespace ns = true ↔ ns ∈ expr.NamespaceList := by
  unfold queryContext.hasNamespace newQueryContext
  rw [hasNamespace_foldl]
  simp

theorem Exec_fst (mm : memoryMetadataDB) (expr : Expression) :
    (mm.Exec expr).1 = (mm.records.entries.map (fun e => e.2)).filter
      (fun r => (newQueryContext expr).hasNamespace r.Namespace && expr.N.Eval r) := by
  unfold memoryMetadataDB.Exec memoryMetadataDB.getNode
  dsimp only
  rw [getNode_foldl]
  simp

theorem mem_Exec_iff (mm : memoryMetadataDB) (expr : Expression) (x : MetadataRecord) :
    x ∈ (mm.Exec expr).1 ↔
      (∃ u, mm.records.lookup u = some x) ∧ x.Namespace ∈ expr.NamespaceList
        ∧ expr.N.Eval x = true := by
  rw [Exec_fst, List.mem_filter, Bool.and_eq_true, hasNamespace_newQueryContext]
  have : x ∈ mm.records.entries.map (fun e => e.2) ↔ ∃ u, mm.records.lookup u = some x := by
    constructor
    · intro h
      rcases List.mem_map.1 h with ⟨e, he, hex⟩
      cases e with
      | mk u y =>
        refine ⟨u, ?_⟩
        have := AList.mem_lookup_iff.2 he
        simpa [← hex] using this
    · rintro ⟨u, hu⟩
      exact List.mem_map.2 ⟨⟨u, x⟩, AList.mem_lookup_iff.1 hu, rfl⟩
  rw [this]

/-! ## Claims on `Valid`, `Insert` and `Exec` -/

/-- C1 (as stated, refuted): `Valid` is not equivalent to "`Key` is the final segment of
`URI`, and `Namespace`, `VK`, `URI` are non-empty and `Time > 0`": `sampleRecord` is valid
although the final segment of its `URI` is `*` and its `Key` is `giles`. -/
theorem C1_counterexample :
    sampleRecord.Valid = true ∧
      ¬ ((strings.Split sampleRecord.URI '/').getLast? = some sampleRecord.Key ∧
          sampleRecord.Namespace ≠ "" ∧ sampleRecord.VK ≠ "" ∧ sampleRecord.URI ≠ "" ∧
          sampleRecord.Time > 0) := by
  decide

/-- C1 (amended): `Valid` returns true exactly when `Key` equals the final segment of `Key`
itself, which is to say `Key` holds no slash, and `URI`, `VK`, `Namespace` are non-empty
and `Time > 0`. -/
theorem C1_Valid_iff (r : MetadataRecord) :
    r.Valid = true ↔
      ((strings.Split r.Key '/').getLast? = some r.Key ∧ '/' ∉ r.Key.data ∧
        r.URI ≠ "" ∧ r.VK ≠ "" ∧ r.Namespace ≠ "" ∧ r.Time > 0) := by
  have hne : (strings.Split r.Key '/').length ≠ 0 := by
    unfold strings.Split
    simpa using splitOn_ne_nil '/' r.Key.data
  unfold MetadataRecord.Valid
  dsimp only
  rw [if_neg (by simpa using hne)]
  cases hl : (strings.Split r.Key '/').getLast? with
  | none => simp
  | some key =>
    dsimp only
    constructor
    · intro h
      simp only [Bool.and_eq_true, beq_iff_eq, bne_iff_ne, ne_eq, decide_eq_true_eq] at h
      obtain ⟨⟨⟨⟨h1, h2⟩, h3⟩, h4⟩, h5⟩ := h
      have hk : (strings.Split r.Key '/').getLast? = some r.Key := by rw [hl, h1]
      exact ⟨by rw [← hl, hk], (Split_getLast_eq_self_iff r.Key).1 hk, h2, h3, h4, h5⟩
    · rintro ⟨h1, _, h2, h3, h4, h5⟩
      simp only [Bool.and_eq_true, beq_iff_eq, bne_iff_ne, ne_eq, decide_eq_true_eq]
      exact ⟨⟨⟨⟨(Option.some.inj h1).symm, h2⟩, h3⟩, h4⟩, h5⟩

theorem lookup_Insert_nonempty (mm : memoryMetadataDB) (r : MetadataRecord)
    (hv : r.Valid = true) (hne : r.Value ≠ []) :
    (mm.Insert (some r)).2.records.lookup r.URI = some r := by
  unfold memoryMetadataDB.Insert
  simp [hv, hne]

/-- C2: `Insert` of a non-nil record that is not valid returns an error and leaves the
index as it was. -/
theorem C2_Insert_invalid (mm : memoryMetadataDB) (r : MetadataRecord)
    (h : r.Valid = false) :
    (mm.Insert (some r)).1 ≠ none ∧ (mm.Insert (some r)).2 = mm := by
  unfold memoryMetadataDB.Insert
  simp [h]

theorem C2_Insert_invalid_witness :
    sampleInvalid.Valid = false ∧
      (CreateSmallMetadataDB.Insert (some sampleInvalid)).1 ≠ none ∧
      (CreateSmallMetadataDB.Insert (some sampleInvalid)).2 = CreateSmallMetadataDB :=
  ⟨by decide, C2_Insert_invalid CreateSmallMetadataDB sampleInvalid (by decide)⟩

/-- C3: when the index holds a record at `u`, `Insert` of a valid record with `URI = u` and
an empty `Value` removes the entry at `u`, leaves every other entry as it was, and no `Exec`
afterwards returns a record whose `URI` is `u`. -/
theorem C3_Insert_tombstone (mm : memoryMetadataDB) (hr : Reachable mm) (u : String)
    (r : MetadataRecord) (hu : (mm.records.lookup u).isSome = true) (hv : r.Valid = true)
    (hru : r.URI = u) (he : r.Value = []) :
    (mm.Insert (some r)).2.records.lookup u = none ∧
      (∀ w, w ≠ u → (mm.Insert (some r)).2.records.lookup w = mm.records.lookup w) ∧
      ∀ (e : Expression) (x : MetadataRecord),
        x ∈ ((mm.Insert (some r)).2.Exec e).1 → x.URI ≠ u := by
  subst hru
  have hk := keyedByURI_Insert mm (some r) (keyedByURI_of_reachable mm hr)
  have hI : (mm.Insert (some r)).2 = { records := mm.records.erase r.URI } := by
    unfold memoryMetadataDB.Insert
    simp [hv, hu, he]
  have h1 : (mm.Insert (some r)).2.records.lookup r.URI = none := by
    rw [hI]
    simp
  refine ⟨h1, ?_, ?_⟩
  · intro w hw
    rw [hI]
    exact AList.lookup_erase_ne hw
  · intro e x hx hxu
    rcases ((mem_Exec_iff _ e x).1 hx).1 with ⟨w, hw⟩
    have : x.URI = w := hk w x hw
    rw [← this, hxu, h1] at hw
    cases hw

theorem C3_Insert_tombstone_witness :
    ((CreateSmallMetadataDB.Insert (some sampleRecord)).2.Insert
        (some sampleTombstone)).2.records.lookup "ns/dev/*" = none ∧
      (∀ w, w ≠ "ns/dev/*" →
        ((CreateSmallMetadataDB.Insert (some sampleRecord)).2.Insert
            (some sampleTombstone)).2.records.lookup w
          = (CreateSmallMetadataDB.Insert (some sampleRecord)).2.records.lookup w) ∧
      ∀ (e : Expression) (x : MetadataRecord),
        x ∈ (((CreateSmallMetadataDB.Insert (some sampleRecord)).2.Insert
            (some sampleTombstone)).2.Exec e).1 → x.URI ≠ "ns/dev/*" :=
  C3_Insert_tombstone (CreateSmallMetadataDB.Insert (some sampleRecord)).2
    (Reachable.step _ _ Reachable.init) "ns/dev/*" sampleTombstone
    (by decide) (by decide) (by decide) (by decide)

/-- C4: `Insert` of a valid record with a non-empty `Value` returns nil, files the record
under its `URI` in place of whatever was there, and leaves every other entry as it was. -/
theorem C4_Insert_upsert (mm : memoryMetadataDB) (r : MetadataRecord)
    (hv : r.Valid = true) (hne : r.Value ≠ []) :
    (mm.Insert (some r)).1 = none ∧
      (mm.Insert (some r)).2.records.lookup r.URI = some r ∧
      ∀ w, w ≠ r.URI → (mm.Insert (some r)).2.records.lookup w = mm.records.lookup w := by
  have hI : mm.Insert (some r) = (none, { records := mm.records.insert r.URI r }) := by
    unfold memoryMetadataDB.Insert
    simp [hv, hne]
  rw [hI]
  refine ⟨rfl, ?_, ?_⟩
  · simp
  · intro w hw
    exact AList.lookup_insert_ne hw

theorem C4_Insert_upsert_witness :
    (CreateSmallMetadataDB.Insert (some sampleRecord)).1 = none ∧
      (CreateSmallMetadataDB.Insert (some sampleRecord)).2.records.lookup sampleRecord.URI
        = some sampleRecord ∧
      ∀ w, w ≠ sampleRecord.URI →
        (CreateSmallMetadataDB.Insert (some sampleRecord)).2.records.lookup w
          = CreateSmallMetadataDB.records.lookup w :=
  C4_Insert_upsert CreateSmallMetadataDB sampleRecord (by decide) (by decide)

/-- C5 (as stated, refuted): `sampleTombstone` is valid, yet after two consecutive `Insert`
calls of it on the empty index there is no entry at its `URI`: the first call files it,
the second finds it there and deletes it. -/
theorem C5_counterexample :
    sampleTombstone.Valid = true ∧
      ((CreateSmallMetadataDB.Insert (some sampleTombstone)).2.Insert
        (some sampleTombstone)).2.records.lookup sampleTombstone.URI = none := by
  decide

/-- C5 (amended): for a valid record with a non-empty `Value`, after two consecutive
`Insert` calls the index has exactly one entry at the record's `URI`, and its `Value` is the
record's. -/
theorem C5_Insert_twice (mm : memoryMetadataDB) (r : MetadataRecord)
    (hv : r.Valid = true) (hne : r.Value ≠ []) :
    ((mm.Insert (some r)).2.Insert (some r)).2.records.keys.count r.URI = 1 ∧
      ∃ x, ((mm.Insert (some r)).2.Insert (some r)).2.records.lookup r.URI = some x ∧
        x.Value = r.Value := by
  have hl : ((mm.Insert (some r)).2.Insert (some r)).2.records.lookup r.URI = some r :=
    (lookup_Insert_nonempty (mm.Insert (some r)).2 r hv hne)
  refine ⟨?_, r, hl, rfl⟩
  apply List.count_eq_one_of_mem (AList.keys_nodup _)
  rw [← AList.mem_keys, ← AList.lookup_isSome, hl]
  rfl

theorem C5_Insert_twice_witness :
    ((CreateSmallMetadataDB.Insert (some sampleRecord)).2.Insert
        (some sampleRecord)).2.records.keys.count sampleRecord.URI = 1 ∧
      ∃ x, ((CreateSmallMetadataDB.Insert (some sampleRecord)).2.Insert
          (some sampleRecord)).2.records.lookup sampleRecord.URI = some x ∧
        x.Value = sampleRecord.Value :=
  C5_Insert_twice CreateSmallMetadataDB sampleRecord (by decide) (by decide)

/-- C6: on an index the program can be in, a record is in the result of `Exec` exactly when
it is stored, its `Namespace` is in the expression's list and `Eval` accepts it; such a
record is in the result once; and `Exec` leaves the index as it was. -/
theorem C6_Exec_spec (mm : memoryMetadataDB) (hr : Reachable mm) (e : Expression)
    (x : MetadataRecord) :
    (x ∈ (mm.Exec e).1 ↔
        (∃ u, mm.records.lookup u = some x) ∧ x.Namespace ∈ e.NamespaceList
          ∧ e.N.Eval x = true) ∧
      (x ∈ (mm.Exec e).1 → (mm.Exec e).1.count x = 1) ∧
      (mm.Exec e).2 = mm := by
  refine ⟨mem_Exec_iff mm e x, ?_, rfl⟩
  intro hx
  apply List.count_eq_one_of_mem _ hx
  rw [Exec_fst]
  exact (values_nodup_of_keyedByURI mm (keyedByURI_of_reachable mm hr)).filter _

theorem C6_Exec_spec_witness :
    (sampleRecord ∈ ((CreateSmallMetadataDB.Insert (some sampleRecord)).2.Exec
          sampleExpression).1 ↔
        (∃ u, (CreateSmallMetadataDB.Insert (some sampleRecord)).2.records.lookup u
            = some sampleRecord) ∧
          sampleRecord.Namespace ∈ sampleExpression.NamespaceList ∧
          sampleExpression.N.Eval sampleRecord = true) ∧
      (sampleRecord ∈ ((CreateSmallMetadataDB.Insert (some sampleRecord)).2.Exec
          sampleExpression).1 →
        ((CreateSmallMetadataDB.Insert (some sampleRecord)).2.Exec
          sampleExpression).1.count sampleRecord = 1) ∧
      ((CreateSmallMetadataDB.Insert (some sampleRecord)).2.Exec sampleExpression).2
        = (CreateSmallMetadataDB.Insert (some sampleRecord)).2 :=
  C6_Exec_spec (CreateSmallMetadataDB.Insert (some sampleRecord)).2
    (Reachable.step _ _ Reachable.init) sampleExpression sampleRecord

/-! ## Claims on `GetRecords` -/

theorem GetRecords_value_isSome (msg : SimpleMessage) (h : msg.POs ≠ []) :
    ∃ val, GetRecords.value msg = some val := by
  obtain ⟨p, ps, hp⟩ := List.exists_cons_of_ne_nil h
  unfold GetRecords.value
  split
  · split
    · split <;> exact ⟨_, rfl⟩
    · exact ⟨p.contents, by simp [hp]⟩
  · exact ⟨p.contents, by simp [hp]⟩

theorem GetRecords_loop_spec (now : Nat → Int) (msg : SimpleMessage) (parts : List String)
    (uri key ns : String) (hk : parts.getLast? = some key) (hn : parts.head? = some ns)
    (ps : List PayloadObject) (hps : ps ≠ [] → msg.POs ≠ []) (i : Nat)
    (acc : List MetadataRecord) :
    ∃ recs, GetRecords.loop now msg parts uri ps i acc = some recs ∧
      recs.length = acc.length + ps.length ∧
      ∀ r ∈ recs, r ∈ acc ∨
        (r.URI = uri ∧ r.Key = key ∧ r.Namespace = ns ∧ r.VK = msg.From) := by
  induction ps generalizing i acc with
  | nil => exact ⟨acc, rfl, by simp, fun r hr => Or.inl hr⟩
  | cons p rest ih =>
    obtain ⟨val, hval⟩ := GetRecords_value_isSome msg (hps (by simp))
    unfold GetRecords.loop
    rw [hk, hn, hval]
    dsimp only
    obtain ⟨recs, h1, h2, h3⟩ := ih (fun _ => hps (by simp)) (i + 1)
      (acc ++ [{ Key := key, Namespace := ns, URI := uri, VK := msg.From,
                 Time := now i, Msg := some msg, Value := val }])
    refine ⟨recs, h1, ?_, ?_⟩
    · rw [h2]
      simp
      omega
    · intro r hr
      rcases h3 r hr with h | h
      · rcases List.mem_append.1 h with h | h
        · exact Or.inl h
        · rw [List.mem_singleton] at h
          subst h
          exact Or.inr ⟨rfl, rfl, rfl, rfl⟩
      · exact Or.inr h

/-- C7: when the topic splits on the slash into at least two segments, `GetRecords` returns
one record per payload object, each with `URI` the segments but the last two joined by the
slash and followed by `/*`, `Key` the last segment, `Namespace` the first segment and `VK`
the sender of the message. -/
theorem C7_GetRecords_spec (now : Nat → Int) (msg : SimpleMessage)
    (h : 2 ≤ (strings.Split msg.URI '/').length) :
    ∃ recs, GetRecords now msg = some recs ∧ recs.length = msg.POs.length ∧
      ∀ r ∈ recs,
        r.URI = strings.Join (strings.Split msg.URI '/').dropLast.dropLast "/" ++ "/*" ∧
        some r.Key = (strings.Split msg.URI '/').getLast? ∧
        some r.Namespace = (strings.Split msg.URI '/').head? ∧
        r.VK = msg.From := by
  have hne : strings.Split msg.URI '/' ≠ [] := by
    intro e
    rw [e] at h
    simp at h
  obtain ⟨key, hk⟩ : ∃ key, (strings.Split msg.URI '/').getLast? = some key :=
    ⟨_, List.getLast?_eq_getLast _ hne⟩
  obtain ⟨ns, hn⟩ : ∃ ns, (strings.Split msg.URI '/').head? = some ns :=
    ⟨_, List.head?_eq_head hne⟩
  have htake : (strings.Split msg.URI '/').take ((strings.Split msg.URI '/').length - 2)
      = (strings.Split msg.URI '/').dropLast.dropLast := by
    rw [List.dropLast_eq_take, List.dropLast_eq_take, List.take_take, List.length_take]
    congr 1
    omega
  obtain ⟨recs, h1, h2, h3⟩ := GetRecords_loop_spec now msg (strings.Split msg.URI '/')
    (strings.Join ((strings.Split msg.URI '/').take
      ((strings.Split msg.URI '/').length - 2)) "/" ++ "/*") key ns hk hn msg.POs
    (fun hp => hp) 0 []
  refine ⟨recs, ?_, by simpa using h2, ?_⟩
  · unfold GetRecords
    dsimp only
    rw [if_neg (by omega)]
    exact h1
  · intro r hr
    rcases h3 r hr with h | ⟨ha, hb, hc, hd⟩
    · cases h
    · rw [hk, hn, ← htake]
      exact ⟨ha, by rw [hb], by rw [hc], hd⟩

theorem C7_GetRecords_spec_witness :
    ∃ recs, GetRecords (fun _ => 1) sampleMessage = some recs ∧
      recs.length = sampleMessage.POs.length ∧
      ∀ r ∈ recs,
        r.URI = strings.Join (strings.Split sampleMessage.URI '/').dropLast.dropLast "/"
          ++ "/*" ∧
        some r.Key = (strings.Split sampleMessage.URI '/').getLast? ∧
        some r.Namespace = (strings.Split sampleMessage.URI '/').head? ∧
        r.VK = sampleMessage.From :=
  C7_GetRecords_spec (fun _ => 1) sampleMessage (by decide)

/-! ## Lemmas on `startForwarding` -/

theorem setMatchAll_lookup (uri : String) (views : List ViewId) (heap : ViewId → View)
    (v : ViewId) (p : String) :
    ((setMatchAll uri views heap) v).MatchSet.lookup p
      = if v ∈ views ∧ p = uri then some true else (heap v).MatchSet.lookup p := by
  unfold setMatchAll
  induction views generalizing heap with
  | nil => simp
  | cons a as ih =>
    rw [List.foldl_cons, ih]
    unfold setMatch
    by_cases hva : v = a
    · subst hva
      by_cases hp : p = uri
      · subst hp
        simp
      · simp [hp, AList.lookup_insert_ne hp]
    · simp [hva, Function.update_noteq hva]

theorem setMatchAll_Expr (uri : String) (views : List ViewId) (heap : ViewId → View)
    (v : ViewId) : ((setMatchAll uri views heap) v).Expr = (heap v).Expr := by
  unfold setMatchAll
  induction views generalizing heap with
  | nil => rfl
  | cons a as ih =>
    rw [List.foldl_cons, ih]
    unfold setMatch
    by_cases hva : v = a
    · subst hva
      simp
    · simp [Function.update_noteq hva]

theorem setMatchAll_of_not_mem (uri : String) (views : List ViewId) (heap : ViewId → View)
    (v : ViewId) (h : v ∉ views) : (setMatchAll uri views heap) v = heap v := by
  unfold setMatchAll
  induction views generalizing heap with
  | nil => rfl
  | cons a as ih =>
    rw [List.foldl_cons, ih _ (fun e => h (List.mem_cons_of_mem _ e))]
    unfold setMatch
    exact Function.update_noteq (fun e => h (by simp [e])) _ _

/-- C8: when no forwarder exists for the path and `Subscribe` fails, `startForwarding`
returns the error of `Subscribe` and changes neither the map of forwarders nor any view. -/
theorem C8_startForwarding_error {F : Type} (ops : Ops F) (client : BW2Client)
    (vm : ViewManager F) (path : String) (views : List ViewId) (err : GoError)
    (hnone : vm.forwarders.lookup path = none)
    (hfail : client.Subscribe vm.subscribeCalls path = Except.error err) :
    (vm.startForwarding ops client path views).1 = some err ∧
      (vm.startForwarding ops client path views).2.forwarders = vm.forwarders ∧
      (vm.startForwarding ops client path views).2.views = vm.views := by
  unfold ViewManager.startForwarding
  rw [hnone]
  dsimp only
  rw [hfail]
  exact ⟨rfl, rfl, rfl⟩

/-- C9: when `startForwarding` returns nil, the map has a forwarder at the path: the one
that was there, after `addViews`, with no `Subscribe` call made, or else a new one on the
channel `Subscribe` returned, after `addViews`; forwarders at other paths are as before;
and every given view has `MatchSet[path] = true` with its other entries as before. -/
theorem C9_startForwarding_ok {F : Type} (ops : Ops F) (client : BW2Client)
    (vm : ViewManager F) (path : String) (views : List ViewId)
    (hok : (vm.startForwarding ops client path views).1 = none) :
    (∃ f', (vm.startForwarding ops client path views).2.forwarders.lookup path = some f' ∧
        (∀ f, vm.forwarders.lookup path = some f →
          f' = ops.addViews f views ∧
          (vm.startForwarding ops client path views).2.subscribeCalls
            = vm.subscribeCalls) ∧
        (vm.forwarders.lookup path = none →
          ∃ sub, client.Subscribe vm.subscribeCalls path = Except.ok sub ∧
            f' = ops.addViews (ops.newForwarder sub path) views)) ∧
      (∀ w, w ≠ path →
        (vm.startForwarding ops client path views).2.forwarders.lookup w
          = vm.forwarders.lookup w) ∧
      ∀ v ∈ views,
        ((vm.startForwarding ops client path views).2.views v).MatchSet.lookup path
            = some true ∧
          ∀ w, w ≠ path →
            ((vm.startForwarding ops client path views).2.views v).MatchSet.lookup w
              = (vm.views v).MatchSet.lookup w := by
  unfold ViewManager.startForwarding at hok ⊢
  cases hl : vm.forwarders.lookup path with
  | some f =>
    simp only [hl, ViewManager.registerViews] at hok ⊢
    refine ⟨⟨ops.addViews f views, by simp, ?_, by simp⟩, ?_, ?_⟩
    · intro f0 hf0
      cases hf0
      exact ⟨rfl, trivial⟩
    · intro w hw
      rw [AList.lookup_insert_ne hw]
    · intro v hv
      refine ⟨by simp [setMatchAll_lookup, hv], ?_⟩
      intro w hw
      simp [setMatchAll_lookup, hw]
  | none =>
    simp only [hl] at hok ⊢
    cases hs : client.Subscribe vm.subscribeCalls path with
    | error err =>
      rw [hs] at hok
      cases hok
    | ok sub =>
      simp only [ViewManager.registerViews]
      refine ⟨⟨ops.addViews (ops.newForwarder sub path) views, by simp, ?_, ?_⟩, ?_, ?_⟩
      · intro f0 hf0
        cases hf0
      · intro _
        exact ⟨sub, rfl, rfl⟩
      · intro w hw
        rw [AList.lookup_insert_ne hw, AList.lookup_insert_ne hw]
      · intro v hv
        refine ⟨by simp [setMatchAll_lookup, hv], ?_⟩
        intro w hw
        simp [setMatchAll_lookup, hw]

/-! ## Lemmas on `checkViews` -/

theorem reset_of_not_mem {F : Type} (ops : Ops F) (viewList : List ViewId)
    (heap : ViewId → View) (v : ViewId) (h : v ∉ viewList) :
    (viewList.foldl
      (fun heap v => Function.update heap v (ops.setMatchSetTo (heap v) false)) heap) v
      = heap v := by
  induction viewList generalizing heap with
  | nil => rfl
  | cons a as ih =>
    rw [List.foldl_cons, ih _ (fun e => h (List.mem_cons_of_mem _ e))]
    exact Function.update_noteq (fun e => h (by simp [e])) _ _

theorem reset_Expr {F : Type} (ops : Ops F)
    (hE : ∀ w : View, (ops.setMatchSetTo w false).Expr = w.Expr)
    (viewList : List ViewId) (heap : ViewId → View) (v : ViewId) :
    ((viewList.foldl
      (fun heap v => Function.update heap v (ops.setMatchSetTo (heap v) false)) heap) v).Expr
      = (heap v).Expr := by
  induction viewList generalizing heap with
  | nil => rfl
  | cons a as ih =>
    rw [List.foldl_cons, ih]
    by_cases hva : v = a
    · subst hva
      rw [Function.update_same, hE]
    · rw [Function.update_noteq hva]

theorem reset_of_mem {F : Type} (ops : Ops F)
    (hF : ∀ (w : View) (p : String), (ops.setMatchSetTo w false).MatchSet.lookup p ≠ some true)
    (viewList : List ViewId) (heap : ViewId → View) (v : ViewId) (h : v ∈ viewList)
    (p : String) :
    ((viewList.foldl
      (fun heap v => Function.update heap v (ops.setMatchSetTo (heap v) false)) heap)
        v).MatchSet.lookup p ≠ some true := by
  induction viewList generalizing heap with
  | nil => cases h
  | cons a as ih =>
    rw [List.foldl_cons]
    by_cases hv : v ∈ as
    · exact ih _ hv
    · have hva : v = a := by
        rcases List.mem_cons.1 h with e | e
        · exact e
        · exact absurd e hv
      subst hva
      rw [reset_of_not_mem ops as _ v hv, Function.update_same]
      exact hF _ p

theorem startForwarding_of_client_ok {F : Type} (ops : Ops F) (client : BW2Client)
    (hc : ∀ log uri, ∃ sub, client.Subscribe log uri = Except.ok sub)
    (vm : ViewManager F) (uri : String) (views : List ViewId) :
    ∃ vm1, vm.startForwarding ops client uri views = (none, vm1) ∧ vm1.db = vm.db ∧
      vm1.expressions = vm.expressions ∧ vm1.views = setMatchAll uri views vm.views ∧
      ∃ f, vm1.forwarders.lookup uri = some f := by
  unfold ViewManager.startForwarding
  cases hl : vm.forwarders.lookup uri with
  | some f =>
    exact ⟨_, rfl, rfl, rfl, rfl, ops.addViews f views,
      by simp [ViewManager.registerViews]⟩
  | none =>
    obtain ⟨sub, hs⟩ := hc vm.subscribeCalls uri
    simp only [hs]
    exact ⟨_, rfl, rfl, rfl, rfl, ops.addViews (ops.newForwarder sub uri) views,
      by simp [ViewManager.registerViews]⟩

theorem matchLoop_spec {F : Type} (ops : Ops F) (client : BW2Client)
    (hc : ∀ log uri, ∃ sub, client.Subscribe log uri = Except.ok sub)
    (viewList : List ViewId) (view : ViewId) (recs : List MetadataRecord)
    (vm : ViewManager F) :
    ∃ vm2, checkViews.matchLoop ops client viewList view recs vm = some vm2 ∧
      vm2.db = vm.db ∧ vm2.expressions = vm.expressions ∧
      (∀ v, (vm2.views v).Expr = (vm.views v).Expr) ∧
      (∀ v, v ∉ viewList → vm2.views v = vm.views v) ∧
      ∀ v, v ∈ viewList → ∀ p,
        ((vm2.views v).MatchSet.lookup p = some true ↔
          (p ∈ recs.map MetadataRecord.URI ∨ (vm.views v).MatchSet.lookup p = some true)) := by
  induction recs generalizing vm with
  | nil => exact ⟨vm, rfl, rfl, rfl, fun _ => rfl, fun _ _ => rfl, fun _ _ _ => by simp⟩
  | cons r rest ih =>
    unfold checkViews.matchLoop
    split
    · obtain ⟨vm1, h1, hdb, hex, hviews, f, hf⟩ :=
        startForwarding_of_client_ok ops client hc vm r.URI viewList
      rw [h1]
      dsimp only
      rw [hf]
      dsimp only
      obtain ⟨vm2, h2, hdb2, hex2, hE2, hN2, hM2⟩ := ih
        { vm1 with
          forwarders := vm1.forwarders.insert r.URI (ops.send f r.Msg)
          views := setMatchAll r.URI viewList vm1.views }
      refine ⟨vm2, h2, by rw [hdb2, hdb], by rw [hex2, hex], ?_, ?_, ?_⟩
      · intro v
        rw [hE2]
        dsimp only
        rw [setMatchAll_Expr, hviews, setMatchAll_Expr]
      · intro v hv
        rw [hN2 v hv]
        dsimp only
        rw [setMatchAll_of_not_mem _ _ _ _ hv, hviews, setMatchAll_of_not_mem _ _ _ _ hv]
      · intro v hv p
        rw [hM2 v hv p]
        dsimp only
        rw [setMatchAll_lookup, hviews, setMatchAll_lookup]
        by_cases hp : p = r.URI
        · simp [hp, hv]
        · simp [hp]
    · obtain ⟨vm2, h2, hdb2, hex2, hE2, hN2, hM2⟩ := ih
        { vm with views := setMatchAll r.URI viewList vm.views }
      refine ⟨vm2, h2, hdb2, hex2, ?_, ?_, ?_⟩
      · intro v
        rw [hE2]
        dsimp only
        rw [setMatchAll_Expr]
      · intro v hv
        rw [hN2 v hv]
        dsimp only
        rw [setMatchAll_of_not_mem _ _ _ _ hv]
      · intro v hv p
        rw [hM2 v hv p]
        dsimp only
        rw [setMatchAll_lookup]
        by_cases hp : p = r.URI
        · simp [hp, hv]
        · simp [hp]

theorem stopForwarding_frame {F : Type} (ops : Ops F) (vm : ViewManager F) (uri : String)
    (views : List ViewId) :
    (vm.stopForwarding ops uri views).db = vm.db ∧
      (vm.stopForwarding ops uri views).expressions = vm.expressions ∧
      (vm.stopForwarding ops uri views).views = vm.views := by
  unfold ViewManager.stopForwarding
  split <;> exact ⟨rfl, rfl, rfl⟩

theorem stopLoop_frame {F : Type} (ops : Ops F) (viewList : List ViewId)
    (entries : List (Sigma (fun _ : String => Bool))) (vm : ViewManager F) :
    (checkViews.stopLoop ops viewList entries vm).db = vm.db ∧
      (checkViews.stopLoop ops viewList entries vm).expressions = vm.expressions ∧
      (checkViews.stopLoop ops viewList entries vm).views = vm.views := by
  unfold checkViews.stopLoop
  induction entries generalizing vm with
  | nil => exact ⟨rfl, rfl, rfl⟩
  | cons e es ih =>
    rw [List.foldl_cons]
    obtain ⟨h1, h2, h3⟩ := ih (if !e.2 then vm.stopForwarding ops e.1 viewList else vm)
    rw [h1, h2, h3]
    split
    · exact stopForwarding_frame ops vm e.1 viewList
    · exact ⟨rfl, rfl, rfl⟩

theorem group_spec {F : Type} (ops : Ops F) (client : BW2Client)
    (hc : ∀ log uri, ∃ sub, client.Subscribe log uri = Except.ok sub)
    (hE : ∀ w : View, (ops.setMatchSetTo w false).Expr = w.Expr)
    (hF : ∀ (w : View) (p : String), (ops.setMatchSetTo w false).MatchSet.lookup p ≠ some true)
    (vm : ViewManager F) (view : ViewId) (rest : List ViewId) :
    ∃ vm2, checkViews.group ops client vm (view :: rest) = some vm2 ∧
      vm2.db = vm.db ∧ vm2.expressions = vm.expressions ∧
      (∀ v, (vm2.views v).Expr = (vm.views v).Expr) ∧
      (∀ v, v ∉ view :: rest → vm2.views v = vm.views v) ∧
      ∀ v, v ∈ view :: rest → ∀ p,
        ((vm2.views v).MatchSet.lookup p = some true ↔
          p ∈ (vm.db.Exec (vm.views view).Expr).1.map MetadataRecord.URI) := by
  unfold checkViews.group
  dsimp only
  obtain ⟨vm2, h2, hdb, hex, hEx, hN, hM⟩ := matchLoop_spec ops client hc (view :: rest) view
    (vm.db.Exec (vm.views view).Expr).1
    { vm with
      db := (vm.db.Exec (vm.views view).Expr).2
      views := (view :: rest).foldl
        (fun heap v => Function.update heap v (ops.setMatchSetTo (heap v) false)) vm.views }
  rw [h2]
  dsimp only
  obtain ⟨s1, s2, s3⟩ := stopLoop_frame ops (view :: rest)
    (vm2.views view).MatchSet.entries vm2
  refine ⟨_, rfl, by rw [s1, hdb]; rfl, by rw [s2, hex], ?_, ?_, ?_⟩
  · intro v
    rw [s3, hEx]
    exact reset_Expr ops hE (view :: rest) vm.views v
  · intro v hv
    rw [s3, hN v hv]
    exact reset_of_not_mem ops (view :: rest) vm.views v hv
  · intro v hv p
    rw [s3, hM v hv p]
    have := reset_of_mem ops hF (view :: rest) vm.views v hv p
    constructor
    · rintro (h | h)
      · exact h
      · exact absurd h this
    · exact Or.inl

theorem groups_spec {F : Type} (ops : Ops F) (client : BW2Client)
    (hc : ∀ log uri, ∃ sub, client.Subscribe log uri = Except.ok sub)
    (hE : ∀ w : View, (ops.setMatchSetTo w false).Expr = w.Expr)
    (hF : ∀ (w : View) (p : String), (ops.setMatchSetTo w false).MatchSet.lookup p ≠ some true)
    (db : memoryMetadataDB) (E : ViewId → Expression) (gs : List (List ViewId))
    (vm : ViewManager F) (hdb : vm.db = db) (hEx : ∀ v, (vm.views v).Expr = E v)
    (hne : ∀ g ∈ gs, g ≠ []) :
    ∃ vm2, checkViews.groups ops client gs vm = some vm2 ∧ vm2.db = db ∧
      vm2.expressions = vm.expressions ∧ (∀ v, (vm2.views v).Expr = E v) ∧
      ∀ (T : List String) (v : ViewId),
        ((∃ g ∈ gs, v ∈ g) ∨ ∀ p, (vm.views v).MatchSet.lookup p = some true ↔ p ∈ T) →
        (∀ g ∈ gs, v ∈ g → ∀ a, g.head? = some a →
          ∀ p, p ∈ (db.Exec (E a)).1.map MetadataRecord.URI ↔ p ∈ T) →
        ∀ p, (vm2.views v).MatchSet.lookup p = some true ↔ p ∈ T := by
  induction gs generalizing vm with
  | nil =>
    refine ⟨vm, rfl, hdb, rfl, hEx, ?_⟩
    intro T v h _
    rcases h with ⟨g, hg, _⟩ | h
    · cases hg
    · exact h
  | cons g gs ih =>
    cases g with
    | nil => exact absurd rfl (hne [] (by simp))
    | cons view rest =>
      obtain ⟨vm1, h1, hdb1, hex1, hE1, hN1, hM1⟩ :=
        group_spec ops client hc hE hF vm view rest
      obtain ⟨vm2, h2, hdb2, hex2, hE2, hT2⟩ := ih vm1 (by rw [hdb1, hdb])
        (fun v => by rw [hE1, hEx]) (fun g hg => hne g (List.mem_cons_of_mem _ hg))
      refine ⟨vm2, ?_, hdb2, by rw [hex2, hex1], hE2, ?_⟩
      · unfold checkViews.groups
        rw [h1]
        exact h2
      · intro T v hv hT
        apply hT2 T v
        · by_cases hvg : v ∈ view :: rest
          · right
            intro p
            rw [hM1 v hvg p, hdb, hEx view]
            exact hT (view :: rest) (by simp) hvg view rfl p
          · rcases hv with ⟨g, hg, hvin⟩ | hv
            · left
              rcases List.mem_cons.1 hg with e | e
              · subst e
                exact absurd hvin hvg
              · exact ⟨g, e, hvin⟩
            · right
              rw [hN1 v hvg]
              exact hv
        · intro g hg
          exact hT g (List.mem_cons_of_mem _ hg)

/-- C10: when every `Subscribe` succeeds, a `checkViews` pass completes, and afterwards,
for every list of views filed under an expression hash and every view `v` in the list, the
paths `p` with `v.MatchSet[p] = true` are exactly the `URI`s of the records `Exec` returns
for the expression of the first view of the list on the index. Assumed of the functions
declared outside `manager.go`: `_setMatchSetTo(false)` leaves the expression of the view
as it was and no entry of its `MatchSet` true. Assumed of the state: no list of views is
empty, and two lists that share a view have first views with the same expression. -/
theorem C10_checkViews_converges {F : Type} (ops : Ops F) (client : BW2Client)
    (vm : ViewManager F)
    (hc : ∀ log uri, ∃ sub, client.Subscribe log uri = Except.ok sub)
    (hE : ∀ w : View, (ops.setMatchSetTo w false).Expr = w.Expr)
    (hF : ∀ (w : View) (p : String), (ops.setMatchSetTo w false).MatchSet.lookup p ≠ some true)
    (hne : ∀ h l, vm.expressions.lookup h = some l → l ≠ [])
    (hcoh : ∀ h1 l1 h2 l2 a b v, vm.expressions.lookup h1 = some l1 →
      vm.expressions.lookup h2 = some l2 → v ∈ l1 → v ∈ l2 →
      l1.head? = some a → l2.head? = some b → (vm.views a).Expr = (vm.views b).Expr) :
    ∃ vm2, vm.checkViews ops client = some vm2 ∧ vm2.expressions = vm.expressions ∧
      ∀ h l first v, vm2.expressions.lookup h = some l → l.head? = some first → v ∈ l →
        ∀ p, ((vm2.views v).MatchSet.lookup p = some true ↔
          ∃ r ∈ (vm2.db.Exec (vm2.views first).Expr).1, r.URI = p) := by
  have hmem : ∀ g, g ∈ vm.expressions.entries.map (fun e => e.2) ↔
      ∃ h, vm.expressions.lookup h = some g := by
    intro g
    constructor
    · intro hg
      rcases List.mem_map.1 hg with ⟨e, he, heg⟩
      cases e with
      | mk h l =>
        refine ⟨h, ?_⟩
        have := AList.mem_lookup_iff.2 he
        simpa [← heg] using this
    · rintro ⟨h, hh⟩
      exact List.mem_map.2 ⟨⟨h, g⟩, AList.mem_lookup_iff.1 hh, rfl⟩
  obtain ⟨vm2, h2, hdb2, hex2, hE2, hT2⟩ := groups_spec ops client hc hE hF vm.db
    (fun v => (vm.views v).Expr) (vm.expressions.entries.map (fun e => e.2)) vm rfl
    (fun _ => rfl)
    (fun g hg => by
      obtain ⟨h, hh⟩ := (hmem g).1 hg
      exact hne h g hh)
  refine ⟨vm2, h2, hex2, ?_⟩
  intro h l first v hl hfirst hv p
  rw [hex2] at hl
  have key := hT2 ((vm.db.Exec (vm.views first).Expr).1.map MetadataRecord.URI) v
    (Or.inl ⟨l, (hmem l).2 ⟨h, hl⟩, hv⟩)
    (fun g hg hvg a ha q => by
      obtain ⟨h0, hh0⟩ := (hmem g).1 hg
      rw [hcoh h0 g h l a first v hh0 hl hvg hv ha hfirst])
    p
  rw [key, hdb2, hE2 first]
  simp only [List.mem_map]

theorem lookup_foldl_insert (b : Bool) (ks : List String) (m : GoMap Bool) (p : String) :
    AList.lookup p (ks.foldl (fun m k => m.insert k b) m)
      = if p ∈ ks then some b else AList.lookup p m := by
  induction ks generalizing m with
  | nil => simp
  | cons k ks ih =>
    rw [List.foldl_cons, ih]
    by_cases hp : p ∈ ks
    · simp [hp]
    · by_cases hk : p = k
      · subst hk
        simp [hp]
      · simp [hp, hk, AList.lookup_insert_ne hk]

theorem sampleOps_setMatchSetTo_false (w : View) (p : String) :
    (sampleOps.setMatchSetTo w false).MatchSet.lookup p ≠ some true := by
  show AList.lookup p (w.MatchSet.keys.foldl (fun m k => m.insert k false) w.MatchSet)
    ≠ some true
  rw [lookup_foldl_insert]
  by_cases hp : p ∈ w.MatchSet.keys
  · simp [hp]
  · rw [if_neg hp]
    have : AList.lookup p w.MatchSet = none := AList.lookup_eq_none.2 hp
    rw [this]
    simp

theorem sampleManager_expressions (h : String) (l : List ViewId)
    (hl : sampleManager.expressions.lookup h = some l) : l = [0] := by
  unfold sampleManager at hl
  dsimp only at hl
  by_cases hh : h = "h0"
  · subst hh
    rw [AList.lookup_insert] at hl
    exact (Option.some.inj hl).symm
  · rw [AList.lookup_insert_ne hh] at hl
    simp at hl

theorem C8_startForwarding_error_witness :
    (sampleManager.startForwarding sampleOps failingClient "ns/dev/*" [0]).1
        = some (GoError.transport "down") ∧
      (sampleManager.startForwarding sampleOps failingClient "ns/dev/*" [0]).2.forwarders
        = sampleManager.forwarders ∧
      (sampleManager.startForwarding sampleOps failingClient "ns/dev/*" [0]).2.views
        = sampleManager.views :=
  C8_startForwarding_error sampleOps failingClient sampleManager "ns/dev/*" [0]
    (GoError.transport "down") (by decide) rfl

theorem C9_startForwarding_ok_witness :
    (∃ f', (sampleManager.startForwarding sampleOps sampleClient "ns/dev/*"
          [0]).2.forwarders.lookup "ns/dev/*" = some f' ∧
        (∀ f, sampleManager.forwarders.lookup "ns/dev/*" = some f →
          f' = sampleOps.addViews f [0] ∧
          (sampleManager.startForwarding sampleOps sampleClient "ns/dev/*"
            [0]).2.subscribeCalls = sampleManager.subscribeCalls) ∧
        (sampleManager.forwarders.lookup "ns/dev/*" = none →
          ∃ sub, sampleClient.Subscribe sampleManager.subscribeCalls "ns/dev/*"
              = Except.ok sub ∧
            f' = sampleOps.addViews (sampleOps.newForwarder sub "ns/dev/*") [0])) ∧
      (∀ w, w ≠ "ns/dev/*" →
        (sampleManager.startForwarding sampleOps sampleClient "ns/dev/*"
            [0]).2.forwarders.lookup w
          = sampleManager.forwarders.lookup w) ∧
      ∀ v ∈ [0],
        ((sampleManager.startForwarding sampleOps sampleClient "ns/dev/*"
            [0]).2.views v).MatchSet.lookup "ns/dev/*" = some true ∧
          ∀ w, w ≠ "ns/dev/*" →
            ((sampleManager.startForwarding sampleOps sampleClient "ns/dev/*"
                [0]).2.views v).MatchSet.lookup w
              = (sampleManager.views v).MatchSet.lookup w :=
  C9_startForwarding_ok sampleOps sampleClient sampleManager "ns/dev/*" [0] (by decide)

/-- One pass of `checkViews` on `sampleManager`: view 0 matches the path of `sampleRecord`
and a forwarder on that path holds view 0 and was sent the message of the record. -/
theorem checkViews_sampleManager :
    (sampleManager.checkViews sampleOps sampleClient).map
        (fun vm => ((vm.views 0).MatchSet.lookup "ns/dev/*", vm.forwarders.entries))
      = some (some true,
          [⟨"ns/dev/*", { subscription := { URI := "ns/dev/*", serial := 0 },
                          uri := "ns/dev/*", views := [0], sent := [none] }⟩]) := by
  decide

theorem C10_checkViews_converges_witness :
    ∃ vm2, sampleManager.checkViews sampleOps sampleClient = some vm2 ∧
      vm2.expressions = sampleManager.expressions ∧
      ∀ h l first v, vm2.expressions.lookup h = some l → l.head? = some first → v ∈ l →
        ∀ p, ((vm2.views v).MatchSet.lookup p = some true ↔
          ∃ r ∈ (vm2.db.Exec (vm2.views first).Expr).1, r.URI = p) :=
  C10_checkViews_converges sampleOps sampleClient sampleManager
    (fun _ _ => ⟨_, rfl⟩) (fun _ => rfl) sampleOps_setMatchSetTo_false
    (fun h l hl => by rw [sampleManager_expressions h l hl]; simp)
    (fun _ _ _ _ _ _ _ _ _ _ _ _ _ => rfl)

/-! ## Claims on archive requests and on `NewArchiver` -/

/-- C16 (the code at the failing input): `sampleRequestA` and `sampleRequestB` differ in
`UUID` and in `Value`, yet have the same `Hash` whatever the dot form of the payload
object number is: the hash joins `UUID` and `Value` with nothing between them. -/
theorem C16_Hash_collision :
    sampleRequestA.UUID ≠ sampleRequestB.UUID ∧ sampleRequestA.Value ≠ sampleRequestB.Value ∧
      ∀ dotForm : Int → String,
        sampleRequestA.Hash dotForm = sampleRequestB.Hash dotForm := by
  refine ⟨by decide, by decide, ?_⟩
  intro dotForm
  show "a/b" ++ dotForm 1 ++ "x" ++ "yz" = "a/b" ++ dotForm 1 ++ "xy" ++ "z"
  rw [String.append_assoc, String.append_assoc ("a/b" ++ dotForm 1)]
  rfl

theorem TrimSuffix_empty (suffix : String) : strings.TrimSuffix "" suffix = "" := by
  unfold strings.TrimSuffix
  split
  · show String.mk (List.take _ []) = ""
    rw [List.take_nil]
  · rfl

/-- C17 (the code at the failing input): for the message published on `a/b/!meta/giles`
whose payload object decodes to a request with no `URI`, the request that
`ExtractArchiveRequests` returns has the empty `URI`, not `a/b`. -/
theorem C17_URI_stays_empty :
    (ExtractArchiveRequests sampleCodec sampleArchiveMessage).map
        (fun requests => requests.map ArchiveRequest.URI) = some [""] := by
  decide

theorem NewArchiver_never_returns {A T M : Type} (resolve : String → Option A)
    (newMongoStore : mongoConfig A → M) (c : Config) (x : Option (Archiver T M)) :
    NewArchiver resolve newMongoStore c ≠ Outcome.returned x := by
  unfold NewArchiver
  dsimp only
  split
  · simp
  · split
    · split
      · split
        · simp
        · simp [Archiver.setMdStore]
      · simp
    · simp

/-- C18 (the code at the failing input): for `sampleConfig`, which names the `mongo` store,
with an address that resolves, `NewArchiver` panics: it assigns `a.mdStore` through the
nil pointer `a`. -/
theorem C18_NewArchiver_panics :
    NewArchiver (A := String) (T := Unit) (M := Unit) (fun s => some s) (fun _ => ())
      sampleConfig = Outcome.panicked := by
  rfl

/-- C20 (the code at the failing input): `Insert` of the valid, empty-valued
`sampleTombstone` on the empty index files it, and `Exec` returns it. -/
theorem C20_tombstone_stored :
    sampleTombstone.Valid = true ∧ sampleTombstone.Value = [] ∧
      (CreateSmallMetadataDB.Insert (some sampleTombstone)).2.records.lookup
        sampleTombstone.URI = some sampleTombstone ∧
      ((CreateSmallMetadataDB.Insert (some sampleTombstone)).2.Exec sampleExpression).1
        = [sampleTombstone] := by
  decide

/-- C19 (the code at the failing input): the timeseries at `/a/b` that sets no unit of
measure does not take `W` from `/a`, and the one that sets `kW` has it replaced by `W`. -/
theorem C19_properties_inverted :
    ((CollapseToTimeseries samplePrefixes sampleTieredBare).lookup "/a/b").map
        (fun msg => msg.Properties.unitOfMeasure) = some "" ∧
      ((CollapseToTimeseries samplePrefixes sampleTieredSet).lookup "/a/b").map
        (fun msg => msg.Properties.unitOfMeasure) = some "W" := by
  decide

/-! ## Lemmas on `CollapseToTimeseries` -/

theorem inheritKeys_foldl (l : List (Sigma (fun _ : String => String))) (dst : Dict)
    (k : String) :
    AList.lookup k
        (l.foldl (fun dst e => if (dst.lookup e.1).isSome then dst else dst.insert e.1 e.2)
          dst)
      = match dst.lookup k with
        | some v => some v
        | none => List.dlookup k l := by
  induction l generalizing dst with
  | nil =>
    simp only [List.foldl_nil, List.dlookup_nil]
    cases dst.lookup k <;> rfl
  | cons e es ih =>
    rw [List.foldl_cons, ih]
    by_cases hk : k = e.1
    · subst hk
      cases hd : AList.lookup e.1 dst with
      | some v => simp [hd]
      | none =>
        cases e with
        | mk a b => simp [hd, List.dlookup_cons_eq]
    · have h1 : AList.lookup k
          (if (AList.lookup e.1 dst).isSome = true then dst else AList.insert e.1 e.2 dst)
          = AList.lookup k dst := by
        split
        · rfl
        · exact AList.lookup_insert_ne hk
      rw [h1]
      cases e with
      | mk a b =>
        rw [List.dlookup_cons_ne _ _ (fun h => hk h)]

theorem inheritKeys_lookup (src dst : Dict) (k : String) :
    (inheritKeys src dst).lookup k
      = match dst.lookup k with
        | some v => some v
        | none => src.lookup k :=
  inheritKeys_foldl src.entries dst k

theorem inheritKeys_keeps (src dst : Dict) (k v : String) (h : dst.lookup k = some v) :
    (inheritKeys src dst).lookup k = some v := by
  rw [inheritKeys_lookup, h]

theorem extendedBy_refl (m : SmapMessage) : m.ExtendedBy m :=
  ⟨rfl, fun _ _ h => h, fun _ _ h => h⟩

theorem extendedBy_trans {a b c : SmapMessage} (h1 : a.ExtendedBy b) (h2 : b.ExtendedBy c) :
    a.ExtendedBy c :=
  ⟨h2.1.trans h1.1, fun k v h => h2.2.1 k v (h1.2.1 k v h),
    fun k v h => h2.2.2 k v (h1.2.2 k v h)⟩

theorem applyPrefix_UUID (prefixMsg msg : SmapMessage) :
    (applyPrefix prefixMsg msg).UUID = msg.UUID := by
  unfold applyPrefix
  dsimp only
  split <;> split <;> rfl

theorem applyPrefix_Metadata (prefixMsg msg : SmapMessage) :
    (applyPrefix prefixMsg msg).Metadata
      = if prefixMsg.Metadata.entries.length > 0 then
          inheritKeys prefixMsg.Metadata msg.Metadata
        else msg.Metadata := by
  unfold applyPrefix
  dsimp only
  split <;> split <;> rfl

theorem applyPrefix_Actuator (prefixMsg msg : SmapMessage) :
    (applyPrefix prefixMsg msg).Actuator
      = if prefixMsg.Actuator.entries.length > 0 then
          inheritKeys prefixMsg.Actuator msg.Actuator
        else msg.Actuator := by
  unfold applyPrefix
  dsimp only
  split <;> split <;> rfl

theorem applyPrefix_extends (prefixMsg msg : SmapMessage) :
    msg.ExtendedBy (applyPrefix prefixMsg msg) := by
  refine ⟨applyPrefix_UUID prefixMsg msg, ?_, ?_⟩
  · intro k v h
    rw [applyPrefix_Metadata]
    split
    · exact inheritKeys_keeps _ _ k v h
    · exact h
  · intro k v h
    rw [applyPrefix_Actuator]
    split
    · exact inheritKeys_keeps _ _ k v h
    · exact h

theorem tieredExtendedBy_refl (t : TieredSmapMessage) : TieredExtendedBy t t :=
  fun _ => ⟨fun h => h, fun m h => ⟨m, h, extendedBy_refl m⟩⟩

theorem tieredExtendedBy_trans {a b c : TieredSmapMessage} (h1 : TieredExtendedBy a b)
    (h2 : TieredExtendedBy b c) : TieredExtendedBy a c := by
  intro q
  refine ⟨fun h => (h2 q).1 ((h1 q).1 h), ?_⟩
  intro m hm
  obtain ⟨m1, hm1, e1⟩ := (h1 q).2 m hm
  obtain ⟨m2, hm2, e2⟩ := (h2 q).2 m1 hm1
  exact ⟨m2, hm2, extendedBy_trans e1 e2⟩

theorem collapseStep_extends (path : String) (tsm : TieredSmapMessage) (pfx : String) :
    TieredExtendedBy tsm (collapseStep path tsm pfx) := by
  unfold collapseStep
  cases hp : tsm.lookup path with
  | none => exact tieredExtendedBy_refl tsm
  | some msg =>
    dsimp only
    cases hq : tsm.lookup pfx with
    | none => exact tieredExtendedBy_refl tsm
    | some prefixMsg =>
      dsimp only
      split
      · exact tieredExtendedBy_refl tsm
      · intro q
        by_cases hqp : q = path
        · subst hqp
          refine ⟨fun h => absurd (hp.symm.trans h) (by simp), ?_⟩
          intro m hm
          rw [hp] at hm
          cases hm
          exact ⟨_, AList.lookup_insert _, applyPrefix_extends prefixMsg msg⟩
        · rw [AList.lookup_insert_ne hqp]
          exact tieredExtendedBy_refl tsm q

theorem foldl_collapseStep_extends (path : String) (l : List String)
    (tsm : TieredSmapMessage) :
    TieredExtendedBy tsm (l.foldl (collapseStep path) tsm) := by
  induction l generalizing tsm with
  | nil => exact tieredExtendedBy_refl tsm
  | cons a as ih =>
    rw [List.foldl_cons]
    exact tieredExtendedBy_trans (collapseStep_extends path tsm a) (ih _)

theorem collapsePath_extends (getPrefixes : String → List String) (tsm : TieredSmapMessage)
    (path : String) : TieredExtendedBy tsm (collapsePath getPrefixes tsm path) := by
  unfold collapsePath
  split
  · exact tieredExtendedBy_refl tsm
  · split
    · exact tieredExtendedBy_refl tsm
    · exact foldl_collapseStep_extends path _ tsm

theorem foldl_collapsePath_extends (getPrefixes : String → List String) (l : List String)
    (tsm : TieredSmapMessage) :
    TieredExtendedBy tsm (l.foldl (collapsePath getPrefixes) tsm) := by
  induction l generalizing tsm with
  | nil => exact tieredExtendedBy_refl tsm
  | cons a as ih =>
    rw [List.foldl_cons]
    exact tieredExtendedBy_trans (collapsePath_extends getPrefixes tsm a) (ih _)

theorem prune_foldl (l : List (Sigma (fun _ : String => SmapMessage)))
    (t : TieredSmapMessage) (q : String) :
    AList.lookup q (l.foldl (fun t e => if !e.2.IsTimeseries then t.erase e.1 else t) t)
      = if ∃ e ∈ l, e.1 = q ∧ e.2.IsTimeseries = false then none else AList.lookup q t := by
  induction l generalizing t with
  | nil => simp
  | cons e es ih =>
    rw [List.foldl_cons, ih]
    by_cases h1 : ∃ e' ∈ es, e'.1 = q ∧ e'.2.IsTimeseries = false
    · have h2 : ∃ e' ∈ e :: es, e'.1 = q ∧ e'.2.IsTimeseries = false := by
        obtain ⟨e', he', h⟩ := h1
        exact ⟨e', List.mem_cons_of_mem _ he', h⟩
      rw [if_pos h1, if_pos h2]
    · rw [if_neg h1]
      by_cases h3 : e.1 = q ∧ e.2.IsTimeseries = false
      · have h2 : ∃ e' ∈ e :: es, e'.1 = q ∧ e'.2.IsTimeseries = false :=
          ⟨e, List.mem_cons_self _ _, h3⟩
        rw [if_pos h2]
        obtain ⟨hq, hts⟩ := h3
        subst hq
        simp [hts]
      · have h2 : ¬ ∃ e' ∈ e :: es, e'.1 = q ∧ e'.2.IsTimeseries = false := by
          rintro ⟨e', he', h⟩
          rcases List.mem_cons.1 he' with rfl | he'
          · exact h3 h
          · exact h1 ⟨e', he', h⟩
        rw [if_neg h2]
        cases hts : e.2.IsTimeseries with
        | true => simp
        | false =>
          have hq : q ≠ e.1 := fun hq => h3 ⟨hq.symm, hts⟩
          simp [AList.lookup_erase_ne hq]

theorem pruneNonTimeseries_lookup (t : TieredSmapMessage) (q : String) :
    (pruneNonTimeseries t).lookup q
      = match t.lookup q with
        | some m => if m.IsTimeseries then some m else none
        | none => none := by
  unfold pruneNonTimeseries
  rw [prune_foldl]
  cases hq : t.lookup q with
  | none => simp
  | some m =>
    dsimp only
    have hmem : (⟨q, m⟩ : Sigma (fun _ : String => SmapMessage)) ∈ t.entries :=
      AList.mem_lookup_iff.1 hq
    cases hts : m.IsTimeseries with
    | false =>
      rw [if_pos ⟨⟨q, m⟩, hmem, rfl, hts⟩]
      simp
    | true =>
      have : ¬ ∃ e ∈ t.entries, e.1 = q ∧ e.2.IsTimeseries = false := by
        rintro ⟨⟨q', m'⟩, he, hq', hts'⟩
        dsimp only at hq' hts'
        subst hq'
        have := AList.mem_lookup_iff.2 he
        rw [hq] at this
        cases this
        rw [hts] at hts'
        cases hts'
      rw [if_neg this]
      simp

theorem CollapseToTimeseries_lookup (getPrefixes : String → List String)
    (tsm : TieredSmapMessage) (q : String) :
    (CollapseToTimeseries getPrefixes tsm).lookup q
      = match (tsm.keys.foldl (collapsePath getPrefixes) tsm).lookup q with
        | some m => if m.IsTimeseries then some m else none
        | none => none :=
  pruneNonTimeseries_lookup _ q

/-- C13: after `CollapseToTimeseries` the map holds a path exactly when the input held
it with a message that is a timeseries. -/
theorem C13_Collapse_paths (getPrefixes : String → List String) (tsm : TieredSmapMessage)
    (p : String) :
    p ∈ CollapseToTimeseries getPrefixes tsm ↔
      ∃ m, tsm.lookup p = some m ∧ m.IsTimeseries = true := by
  rw [← AList.lookup_isSome, CollapseToTimeseries_lookup]
  have hext := foldl_collapsePath_extends getPrefixes tsm.keys tsm p
  cases hp : tsm.lookup p with
  | none =>
    rw [hext.1 hp]
    simp
  | some m =>
    obtain ⟨m', hm', e⟩ := hext.2 m hp
    rw [hm']
    have hts : m'.IsTimeseries = m.IsTimeseries := by
      unfold SmapMessage.IsTimeseries
      rw [e.1]
    dsimp only
    rw [hts]
    cases h : m.IsTimeseries <;> simp [h]

/-- C14: a timeseries keeps, through `CollapseToTimeseries`, the value of every key that
its `Metadata` or its `Actuator` defined before the call. -/
theorem C14_Collapse_keeps_own (getPrefixes : String → List String)
    (tsm : TieredSmapMessage) (p : String) (msg : SmapMessage)
    (hp : tsm.lookup p = some msg) (hts : msg.IsTimeseries = true) :
    ∃ msg', (CollapseToTimeseries getPrefixes tsm).lookup p = some msg' ∧
      (∀ k v, msg.Metadata.lookup k = some v → msg'.Metadata.lookup k = some v) ∧
      (∀ k v, msg.Actuator.lookup k = some v → msg'.Actuator.lookup k = some v) := by
  obtain ⟨m', hm', e⟩ := (foldl_collapsePath_extends getPrefixes tsm.keys tsm p).2 msg hp
  refine ⟨m', ?_, e.2.1, e.2.2⟩
  rw [CollapseToTimeseries_lookup, hm']
  have : m'.IsTimeseries = true := by
    unfold SmapMessage.IsTimeseries at hts ⊢
    rw [e.1]
    exact hts
  simp [this]

theorem C14_Collapse_keeps_own_witness :
    ∃ msg', (CollapseToTimeseries samplePrefixes sampleTieredSet).lookup "/a/b" = some msg' ∧
      (∀ k v, sampleChildSet.Metadata.lookup k = some v →
        msg'.Metadata.lookup k = some v) ∧
      (∀ k v, sampleChildSet.Actuator.lookup k = some v →
        msg'.Actuator.lookup k = some v) :=
  C14_Collapse_keeps_own samplePrefixes sampleTieredSet "/a/b" sampleChildSet
    rfl (by decide)

/-! ## Lemmas on the map of forwarders -/

theorem mem_setMatchAll (uri : String) (views : List ViewId) (heap : ViewId → View)
    (v : ViewId) (p : String) (h : p ∈ ((setMatchAll uri views heap) v).MatchSet) :
    p = uri ∨ p ∈ (heap v).MatchSet := by
  rw [← AList.lookup_isSome, setMatchAll_lookup] at h
  by_cases hp : p = uri
  · exact Or.inl hp
  · right
    rw [if_neg (fun e => hp e.2)] at h
    exact AList.lookup_isSome.1 h

theorem startForwarding_forwarders {F : Type} (ops : Ops F) (client : BW2Client)
    (vm : ViewManager F) (uri : String) (views : List ViewId) :
    (vm.startForwarding ops client uri views).2.expressions = vm.expressions ∧
      (∀ p, p ∈ vm.forwarders → p ∈ (vm.startForwarding ops client uri views).2.forwarders) ∧
      ((vm.startForwarding ops client uri views).1 = none →
        uri ∈ (vm.startForwarding ops client uri views).2.forwarders ∧
        (vm.startForwarding ops client uri views).2.views
          = setMatchAll uri views vm.views) ∧
      ((vm.startForwarding ops client uri views).1 ≠ none →
        (vm.startForwarding ops client uri views).2.views = vm.views) := by
  unfold ViewManager.startForwarding
  cases hl : vm.forwarders.lookup uri with
  | some f =>
    dsimp only [ViewManager.registerViews]
    refine ⟨rfl, ?_, fun _ => ⟨?_, rfl⟩, fun h => absurd rfl h⟩
    · intro p hp
      rw [AList.mem_insert]
      exact Or.inr hp
    · rw [AList.mem_insert]
      exact Or.inl rfl
  | none =>
    dsimp only
    cases hs : client.Subscribe vm.subscribeCalls uri with
    | error err =>
      dsimp only
      exact ⟨rfl, fun p hp => hp, (fun h => by cases h), fun _ => rfl⟩
    | ok sub =>
      dsimp only [ViewManager.registerViews]
      refine ⟨rfl, ?_, fun _ => ⟨?_, rfl⟩, fun h => absurd rfl h⟩
      · intro p hp
        rw [AList.mem_insert, AList.mem_insert]
        exact Or.inr (Or.inr hp)
      · rw [AList.mem_insert]
        exact Or.inl rfl

theorem matchLoop_cover {F : Type} (ops : Ops F) (client : BW2Client) (R : ViewId → Prop)
    (viewList : List ViewId) (view : ViewId) (hview : R view)
    (recs : List MetadataRecord) (vm : ViewManager F) (hcov : ForwardersCover R vm) :
    ∃ vm2, checkViews.matchLoop ops client viewList view recs vm = some vm2 ∧
      vm2.expressions = vm.expressions ∧
      (∀ p, p ∈ vm.forwarders → p ∈ vm2.forwarders) ∧ ForwardersCover R vm2 := by
  induction recs generalizing vm with
  | nil => exact ⟨vm, rfl, rfl, fun _ h => h, hcov⟩
  | cons r rest ih =>
    unfold checkViews.matchLoop
    obtain ⟨hex, hmono, hok, herr⟩ := startForwarding_forwarders ops client vm r.URI viewList
    split
    · rename_i hfound
      cases hres : vm.startForwarding ops client r.URI viewList with
      | mk err vm1 =>
        rw [hres] at hex hmono hok herr
        dsimp only at hex hmono hok herr
        cases err with
        | some e =>
          dsimp only
          have hv := herr (by simp)
          obtain ⟨vm2, h2, hex2, hmono2, hcov2⟩ := ih vm1 (by
            intro v hv' p hp
            rw [hv] at hp
            exact hmono p (hcov v hv' p hp))
          exact ⟨vm2, h2, by rw [hex2, hex], fun p hp => hmono2 p (hmono p hp), hcov2⟩
        | none =>
          dsimp only
          obtain ⟨huri, hviews⟩ := hok rfl
          obtain ⟨f, hf⟩ := Option.isSome_iff_exists.1 (AList.lookup_isSome.2 huri)
          rw [hf]
          dsimp only
          obtain ⟨vm2, h2, hex2, hmono2, hcov2⟩ := ih
            { vm1 with
              forwarders := vm1.forwarders.insert r.URI (ops.send f r.Msg)
              views := setMatchAll r.URI viewList vm1.views } (by
            intro v hv' p hp
            show p ∈ AList.insert r.URI (ops.send f r.Msg) vm1.forwarders
            rw [AList.mem_insert]
            rcases mem_setMatchAll _ _ _ _ _ hp with h | h
            · exact Or.inl h
            · rw [hviews] at h
              rcases mem_setMatchAll _ _ _ _ _ h with h | h
              · exact Or.inl h
              · exact Or.inr (hmono p (hcov v hv' p h)))
          refine ⟨vm2, h2, by rw [hex2]; exact hex, ?_, hcov2⟩
          intro p hp
          apply hmono2
          show p ∈ AList.insert r.URI (ops.send f r.Msg) vm1.forwarders
          rw [AList.mem_insert]
          exact Or.inr (hmono p hp)
    · rename_i hfound
      have hin : r.URI ∈ (vm.views view).MatchSet := by
        rw [← AList.lookup_isSome]
        cases hl : (AList.lookup r.URI (vm.views view).MatchSet).isSome with
        | true => rfl
        | false =>
          rw [hl] at hfound
          exact absurd rfl hfound
      obtain ⟨vm2, h2, hex2, hmono2, hcov2⟩ := ih
        { vm with views := setMatchAll r.URI viewList vm.views } (by
          intro v hv' p hp
          rcases mem_setMatchAll _ _ _ _ _ hp with h | h
          · rw [h]
            exact hcov view hview r.URI hin
          · exact hcov v hv' p h)
      exact ⟨vm2, h2, hex2, hmono2, hcov2⟩

theorem mem_reset {F : Type} (ops : Ops F)
    (hK : ∀ (w : View) (p : String), p ∈ (ops.setMatchSetTo w false).MatchSet → p ∈ w.MatchSet)
    (viewList : List ViewId) (heap : ViewId → View) (v : ViewId) (p : String)
    (h : p ∈ ((viewList.foldl
      (fun heap v => Function.update heap v (ops.setMatchSetTo (heap v) false)) heap)
        v).MatchSet) :
    p ∈ (heap v).MatchSet := by
  induction viewList generalizing heap with
  | nil => exact h
  | cons a as ih =>
    rw [List.foldl_cons] at h
    have h1 := ih _ h
    by_cases hva : v = a
    · subst hva
      rw [Function.update_same] at h1
      exact hK _ p h1
    · rw [Function.update_noteq hva] at h1
      exact h1

theorem stopForwarding_forwarders {F : Type} (ops : Ops F) (vm : ViewManager F)
    (uri : String) (views : List ViewId) (p : String) (h : p ∈ vm.forwarders) :
    p ∈ (vm.stopForwarding ops uri views).forwarders := by
  unfold ViewManager.stopForwarding
  split
  · show p ∈ AList.insert uri _ vm.forwarders
    rw [AList.mem_insert]
    exact Or.inr h
  · exact h

theorem stopLoop_forwarders {F : Type} (ops : Ops F) (viewList : List ViewId)
    (entries : List (Sigma (fun _ : String => Bool))) (vm : ViewManager F) (p : String)
    (h : p ∈ vm.forwarders) :
    p ∈ (checkViews.stopLoop ops viewList entries vm).forwarders := by
  unfold checkViews.stopLoop
  induction entries generalizing vm with
  | nil => exact h
  | cons e es ih =>
    rw [List.foldl_cons]
    apply ih
    split
    · exact stopForwarding_forwarders ops vm e.1 viewList p h
    · exact h

theorem group_cover {F : Type} (ops : Ops F) (client : BW2Client)
    (hK : ∀ (w : View) (p : String), p ∈ (ops.setMatchSetTo w false).MatchSet → p ∈ w.MatchSet)
    (R : ViewId → Prop) (view : ViewId) (rest : List ViewId) (hview : R view)
    (vm : ViewManager F) (hcov : ForwardersCover R vm) :
    ∃ vm2, checkViews.group ops client vm (view :: rest) = some vm2 ∧
      vm2.expressions = vm.expressions ∧
      (∀ p, p ∈ vm.forwarders → p ∈ vm2.forwarders) ∧ ForwardersCover R vm2 := by
  unfold checkViews.group
  dsimp only
  obtain ⟨vm2, h2, hex, hmono, hcov2⟩ := matchLoop_cover ops client R (view :: rest) view hview
    (vm.db.Exec (vm.views view).Expr).1
    { vm with
      db := (vm.db.Exec (vm.views view).Expr).2
      views := (view :: rest).foldl
        (fun heap v => Function.update heap v (ops.setMatchSetTo (heap v) false)) vm.views }
    (fun v hv p hp => hcov v hv p (mem_reset ops hK _ _ v p hp))
  rw [h2]
  dsimp only
  obtain ⟨_, s2, s3⟩ := stopLoop_frame ops (view :: rest)
    (vm2.views view).MatchSet.entries vm2
  refine ⟨_, rfl, by rw [s2, hex], ?_, ?_⟩
  · intro p hp
    exact stopLoop_forwarders ops _ _ vm2 p (hmono p hp)
  · intro v hv p hp
    rw [s3] at hp
    exact stopLoop_forwarders ops _ _ vm2 p (hcov2 v hv p hp)

theorem groups_cover {F : Type} (ops : Ops F) (client : BW2Client)
    (hK : ∀ (w : View) (p : String), p ∈ (ops.setMatchSetTo w false).MatchSet → p ∈ w.MatchSet)
    (R : ViewId → Prop) (gs : List (List ViewId))
    (hgs : ∀ g ∈ gs, g ≠ [] ∧ ∀ v ∈ g, R v) (vm : ViewManager F)
    (hcov : ForwardersCover R vm) :
    ∃ vm2, checkViews.groups ops client gs vm = some vm2 ∧
      vm2.expressions = vm.expressions ∧
      (∀ p, p ∈ vm.forwarders → p ∈ vm2.forwarders) ∧ ForwardersCover R vm2 := by
  induction gs generalizing vm with
  | nil => exact ⟨vm, rfl, rfl, fun _ h => h, hcov⟩
  | cons g gs ih =>
    cases g with
    | nil => exact absurd rfl (hgs [] (List.mem_cons_self _ _)).1
    | cons view rest =>
      obtain ⟨vm1, h1, hex1, hmono1, hcov1⟩ := group_cover ops client hK R view rest
        ((hgs _ (List.mem_cons_self _ _)).2 view (List.mem_cons_self _ _)) vm hcov
      obtain ⟨vm2, h2, hex2, hmono2, hcov2⟩ :=
        ih (fun g hg => hgs g (List.mem_cons_of_mem _ hg)) vm1 hcov1
      refine ⟨vm2, ?_, by rw [hex2, hex1], fun p hp => hmono2 p (hmono1 p hp), hcov2⟩
      unfold checkViews.groups
      rw [h1]
      exact h2

/-- C11 (as stated, refuted): on `sampleManager`, after a pass that creates the forwarder
for the path of `sampleRecord`, the record is deleted by `sampleTombstone` and a second
pass runs: the index is empty and view 0 no longer matches the path, yet the map still has
the forwarder. -/
theorem C11_counterexample :
    ((sampleManager.checkViews sampleOps sampleClient).bind
        (fun vm1 =>
          ViewManager.checkViews sampleOps sampleClient
            { vm1 with db := (vm1.db.Insert (some sampleTombstone)).2 })).map
        (fun vm2 =>
          (vm2.db.records.entries.length, (vm2.views 0).MatchSet.lookup "ns/dev/*",
            (vm2.forwarders.lookup "ns/dev/*").isSome))
      = some (0, some false, true) := by
  decide

/-- C11 (amended): a `checkViews` pass completes, removes no entry of the map of
forwarders, and leaves a forwarder for every key of the `MatchSet` of a registered view,
so for every path that a registered view matches, when before the pass every such key had
a forwarder. Assumed of `_setMatchSetTo`, declared outside `manager.go`: with `false` it
adds no key. Assumed of the state: no list of views is empty. -/
theorem C11_forwarders_kept {F : Type} (ops : Ops F) (client : BW2Client)
    (vm : ViewManager F)
    (hK : ∀ (w : View) (p : String), p ∈ (ops.setMatchSetTo w false).MatchSet → p ∈ w.MatchSet)
    (hne : ∀ h l, vm.expressions.lookup h = some l → l ≠ [])
    (hcov : ∀ h l v p, vm.expressions.lookup h = some l → v ∈ l →
      p ∈ (vm.views v).MatchSet → p ∈ vm.forwarders) :
    ∃ vm2, vm.checkViews ops client = some vm2 ∧
      (∀ p, p ∈ vm.forwarders → p ∈ vm2.forwarders) ∧
      (∀ h l v p, vm2.expressions.lookup h = some l → v ∈ l →
        p ∈ (vm2.views v).MatchSet → p ∈ vm2.forwarders) ∧
      (∀ h l v p, vm2.expressions.lookup h = some l → v ∈ l →
        (vm2.views v).MatchSet.lookup p = some true → p ∈ vm2.forwarders) := by
  obtain ⟨vm2, h2, hex, hmono, hcov2⟩ := groups_cover ops client hK
    (fun v => ∃ h l, vm.expressions.lookup h = some l ∧ v ∈ l)
    (vm.expressions.entries.map (fun e => e.2))
    (fun g hg => by
      rcases List.mem_map.1 hg with ⟨e, he, heg⟩
      cases e with
      | mk h l =>
        have hl : vm.expressions.lookup h = some g := by
          have := AList.mem_lookup_iff.2 he
          simpa [← heg] using this
        exact ⟨hne h g hl, fun v hv => ⟨h, g, hl, hv⟩⟩)
    vm (fun v hv p hp => by
      obtain ⟨h, l, hl, hvl⟩ := hv
      exact hcov h l v p hl hvl hp)
  refine ⟨vm2, h2, hmono, ?_, ?_⟩
  · intro h l v p hl hv hp
    rw [hex] at hl
    exact hcov2 v ⟨h, l, hl, hv⟩ p hp
  · intro h l v p hl hv hp
    rw [hex] at hl
    apply hcov2 v ⟨h, l, hl, hv⟩ p
    rw [← AList.lookup_isSome, hp]
    rfl

theorem mem_sampleOps_setMatchSetTo (w : View) (p : String)
    (h : p ∈ (sampleOps.setMatchSetTo w false).MatchSet) : p ∈ w.MatchSet := by
  rw [← AList.lookup_isSome] at h
  have h1 : AList.lookup p
      (w.MatchSet.keys.foldl (fun m k => m.insert k false) w.MatchSet)
      = if p ∈ w.MatchSet.keys then some false else AList.lookup p w.MatchSet :=
    lookup_foldl_insert false w.MatchSet.keys w.MatchSet p
  by_cases hp : p ∈ w.MatchSet.keys
  · exact hp
  · change (AList.lookup p
      (w.MatchSet.keys.foldl (fun m k => m.insert k false) w.MatchSet)).isSome = true at h
    rw [h1, if_neg hp] at h
    exact AList.lookup_isSome.1 h

theorem C11_forwarders_kept_witness :
    ∃ vm2, sampleManager.checkViews sampleOps sampleClient = some vm2 ∧
      (∀ p, p ∈ sampleManager.forwarders → p ∈ vm2.forwarders) ∧
      (∀ h l v p, vm2.expressions.lookup h = some l → v ∈ l →
        p ∈ (vm2.views v).MatchSet → p ∈ vm2.forwarders) ∧
      (∀ h l v p, vm2.expressions.lookup h = some l → v ∈ l →
        (vm2.views v).MatchSet.lookup p = some true → p ∈ vm2.forwarders) :=
  C11_forwarders_kept sampleOps sampleClient sampleManager mem_sampleOps_setMatchSetTo
    (fun h l hl => by rw [sampleManager_expressions h l hl]; simp)
    (fun _ _ _ p _ _ hp => absurd hp (by
      show ¬ p ∈ (∅ : GoMap Bool)
      simp))

/-! ## Lemmas on `Handle` -/

theorem namespaceLogged_congr {F : Type} (vm vm1 : ViewManager F)
    (h1 : vm1.namespaceCalls = vm.namespaceCalls)
    (h2 : vm1.namespaceSubscriptions = vm.namespaceSubscriptions)
    (h : NamespaceLogged vm) : NamespaceLogged vm1 := by
  unfold NamespaceLogged at h ⊢
  rw [h1, h2]
  exact h

theorem subscribeNamespaces_step_spec {F : Type} (client : BW2Client) (vm vm1 : ViewManager F)
    (ns : String) (hlog : NamespaceLogged vm)
    (h : subscribeNamespaces.step client vm ns = some vm1) :
    NamespaceLogged vm1 ∧ vm1.views = vm.views ∧
      ∀ x, x ∈ vm1.namespaceCalls.map Prod.fst ↔
        (x ∈ vm.namespaceCalls.map Prod.fst ∨ x = ns) := by
  unfold subscribeNamespaces.step at h
  dsimp only at h
  split at h
  · rename_i hfound
    cases h
    refine ⟨hlog, rfl, fun x => ⟨Or.inl, ?_⟩⟩
    rintro (hx | hx)
    · exact hx
    · rw [hx, hlog.2.1]
      exact AList.lookup_isSome.1 hfound
  · rename_i hfound
    have hnot : ns ∉ vm.namespaceCalls.map Prod.fst := by
      rw [hlog.2.1, ← AList.lookup_isSome]
      exact hfound
    split at h
    · cases h
    · split at h
      · cases h
      · split at h
        · cases h
        · cases h
          refine ⟨⟨?_, ?_, ?_⟩, rfl, ?_⟩
          · show ((vm.namespaceCalls ++ [(ns, metadataTopic ns)]).map Prod.fst).Nodup
            rw [List.map_append, List.nodup_append]
            refine ⟨hlog.1, by simp, ?_⟩
            intro a ha hb
            simp only [List.map_cons, List.map_nil, List.mem_singleton] at hb
            exact hnot (hb ▸ ha)
          · intro x
            show x ∈ (vm.namespaceCalls ++ [(ns, metadataTopic ns)]).map Prod.fst ↔
              x ∈ AList.insert ns _ vm.namespaceSubscriptions
            rw [List.map_append, List.mem_append, AList.mem_insert, hlog.2.1]
            simp only [List.map_cons, List.map_nil, List.mem_singleton]
            tauto
          · intro e he
            change e ∈ vm.namespaceCalls ++ [(ns, metadataTopic ns)] at he
            rcases List.mem_append.1 he with he | he
            · exact hlog.2.2 e he
            · rw [List.mem_singleton] at he
              rw [he]
          · intro x
            show x ∈ (vm.namespaceCalls ++ [(ns, metadataTopic ns)]).map Prod.fst ↔ _
            rw [List.map_append, List.mem_append]
            simp only [List.map_cons, List.map_nil, List.mem_singleton]

theorem subscribeNamespaces_spec {F : Type} (client : BW2Client) (l : List String)
    (vm vm1 : ViewManager F) (hlog : NamespaceLogged vm)
    (h : ViewManager.subscribeNamespaces client l vm = some vm1) :
    NamespaceLogged vm1 ∧ vm1.views = vm.views ∧
      ∀ x, x ∈ vm1.namespaceCalls.map Prod.fst ↔
        (x ∈ vm.namespaceCalls.map Prod.fst ∨ x ∈ l) := by
  induction l generalizing vm with
  | nil =>
    unfold ViewManager.subscribeNamespaces at h
    cases h
    exact ⟨hlog, rfl, fun x => by simp⟩
  | cons ns rest ih =>
    unfold ViewManager.subscribeNamespaces at h
    cases hs : subscribeNamespaces.step client vm ns with
    | none =>
      rw [hs] at h
      cases h
    | some vm0 =>
      rw [hs] at h
      dsimp only at h
      obtain ⟨hlog0, hv0, hm0⟩ := subscribeNamespaces_step_spec client vm vm0 ns hlog hs
      obtain ⟨hlog1, hv1, hm1⟩ := ih vm0 hlog0 h
      refine ⟨hlog1, by rw [hv1, hv0], ?_⟩
      intro x
      rw [hm1, hm0, List.mem_cons]
      tauto

theorem startForwarding_namespaces {F : Type} (ops : Ops F) (client : BW2Client)
    (vm : ViewManager F) (uri : String) (views : List ViewId) :
    (vm.startForwarding ops client uri views).2.namespaceCalls = vm.namespaceCalls ∧
      (vm.startForwarding ops client uri views).2.namespaceSubscriptions
        = vm.namespaceSubscriptions := by
  unfold ViewManager.startForwarding
  split
  · split <;> exact ⟨rfl, rfl⟩
  · exact ⟨rfl, rfl⟩

theorem Handle_loop_namespaces {F : Type} (ops : Ops F) (client : BW2Client) (v : ViewId)
    (recs : List MetadataRecord) (vm : ViewManager F) (err : Option GoError)
    (vm1 : ViewManager F) (h : Handle.loop ops client v recs vm = some (err, vm1)) :
    vm1.namespaceCalls = vm.namespaceCalls ∧
      vm1.namespaceSubscriptions = vm.namespaceSubscriptions := by
  induction recs generalizing vm with
  | nil =>
    unfold Handle.loop at h
    cases h
    exact ⟨rfl, rfl⟩
  | cons r rest ih =>
    unfold Handle.loop at h
    obtain ⟨hc, hs⟩ := startForwarding_namespaces ops client vm r.URI [v]
    cases hres : vm.startForwarding ops client r.URI [v] with
    | mk e vm0 =>
      rw [hres] at h hc hs
      dsimp only at hc hs
      cases e with
      | some e0 =>
        dsimp only at h
        cases h
        exact ⟨hc, hs⟩
      | none =>
        dsimp only at h
        split at h
        · cases h
        · obtain ⟨h1, h2⟩ := ih _ h
          exact ⟨h1.trans hc, h2.trans hs⟩

theorem addView_namespaces {F : Type} (ops : Ops F) (vm : ViewManager F) (v : ViewId) :
    (vm.addView ops v).namespaceCalls = vm.namespaceCalls ∧
      (vm.addView ops v).namespaceSubscriptions = vm.namespaceSubscriptions ∧
      (vm.addView ops v).views = vm.views ∧ (vm.addView ops v).db = vm.db := by
  unfold ViewManager.addView
  dsimp only
  split <;> exact ⟨rfl, rfl, rfl, rfl⟩

theorem Handle_spec {F : Type} (ops : Ops F) (client : BW2Client) (vm : ViewManager F)
    (v : ViewId) (err : Option GoError) (vm1 : ViewManager F) (hlog : NamespaceLogged vm)
    (h : vm.Handle ops client v = some (err, vm1)) :
    NamespaceLogged vm1 ∧
      ∀ x, x ∈ vm1.namespaceCalls.map Prod.fst ↔
        (x ∈ vm.namespaceCalls.map Prod.fst ∨ x ∈ (vm.views v).Expr.NamespaceList) := by
  unfold ViewManager.Handle at h
  cases hs : ViewManager.subscribeNamespaces client (vm.views v).Expr.NamespaceList vm with
  | none =>
    rw [hs] at h
    cases h
  | some vm0 =>
    rw [hs] at h
    dsimp only at h
    obtain ⟨hlog0, _, hm0⟩ := subscribeNamespaces_spec client _ vm vm0 hlog hs
    obtain ⟨h1, h2⟩ := Handle_loop_namespaces ops client v _ _ err vm1 h
    dsimp only at h1 h2
    obtain ⟨a1, a2, _, _⟩ := addView_namespaces ops
      { vm0 with
        views := Function.update vm0.views v
          { vm0.views v with
            Expr := { (vm0.views v).Expr with
              NamespaceList := (vm0.views v).Expr.NamespaceList.map
                (fun ns => (vm0.namespaceAliases.lookup ns).getD "") } } } v
    dsimp only at a1 a2
    have c1 : vm1.namespaceCalls = vm0.namespaceCalls := h1.trans a1
    have c2 : vm1.namespaceSubscriptions = vm0.namespaceSubscriptions := h2.trans a2
    refine ⟨namespaceLogged_congr vm0 vm1 c1 c2 hlog0, ?_⟩
    intro x
    rw [c1, hm0]

theorem HandleAll_spec {F : Type} (ops : Ops F) (client : BW2Client) (vs : List ViewId)
    (vm vm2 : ViewManager F) (hlog : NamespaceLogged vm)
    (h : HandleAll ops client vs vm = some vm2) :
    NamespaceLogged vm2 ∧
      ∀ x, x ∈ vm2.namespaceCalls.map Prod.fst ↔
        (x ∈ vm.namespaceCalls.map Prod.fst ∨ x ∈ namedBy ops client vs vm) := by
  induction vs generalizing vm with
  | nil =>
    unfold HandleAll at h
    cases h
    exact ⟨hlog, fun x => by simp [namedBy]⟩
  | cons v vs ih =>
    unfold HandleAll at h
    cases hh : vm.Handle ops client v with
    | none =>
      rw [hh] at h
      cases h
    | some res =>
      cases res with
      | mk err vm1 =>
        rw [hh] at h
        dsimp only at h
        obtain ⟨hlog1, hm1⟩ := Handle_spec ops client vm v err vm1 hlog hh
        obtain ⟨hlog2, hm2⟩ := ih vm1 hlog1 h
        refine ⟨hlog2, ?_⟩
        have hn : namedBy ops client (v :: vs) vm
            = (vm.views v).Expr.NamespaceList ++ namedBy ops client vs vm1 := by
          conv_lhs => unfold namedBy
          rw [hh]
        intro x
        rw [hm2, hm1, hn, List.mem_append]
        tauto

theorem subscribeNamespaces_completes {F : Type} (client : BW2Client)
    (hr : ∀ ns, ∃ k, client.ResolveRegistry ns = Except.ok k)
    (hc : ∀ log uri, ∃ sub, client.Subscribe log uri = Except.ok sub)
    (hq : ∀ uri, ∃ u, client.Query uri = Except.ok u)
    (l : List String) (vm : ViewManager F) :
    ∃ vm1, ViewManager.subscribeNamespaces client l vm = some vm1 := by
  induction l generalizing vm with
  | nil => exact ⟨vm, rfl⟩
  | cons ns rest ih =>
    unfold ViewManager.subscribeNamespaces
    have hstep : ∃ vm0, subscribeNamespaces.step client vm ns = some vm0 := by
      unfold subscribeNamespaces.step
      dsimp only
      split
      · exact ⟨vm, rfl⟩
      · obtain ⟨k, hk⟩ := hr ns
        obtain ⟨sub, hsub⟩ := hc vm.subscribeCalls (metadataTopic ns)
        obtain ⟨u, hu⟩ := hq (metadataTopic ns)
        rw [hk]
        dsimp only
        rw [hsub]
        dsimp only
        rw [hu]
        exact ⟨_, rfl⟩
    obtain ⟨vm0, h0⟩ := hstep
    rw [h0]
    exact ih vm0

theorem Handle_loop_completes {F : Type} (ops : Ops F) (client : BW2Client)
    (hc : ∀ log uri, ∃ sub, client.Subscribe log uri = Except.ok sub) (v : ViewId)
    (recs : List MetadataRecord) (vm : ViewManager F) :
    ∃ res, Handle.loop ops client v recs vm = some res := by
  induction recs generalizing vm with
  | nil => exact ⟨_, rfl⟩
  | cons r rest ih =>
    unfold Handle.loop
    obtain ⟨vm1, h1, _, _, _, f, hf⟩ := startForwarding_of_client_ok ops client hc vm r.URI [v]
    rw [h1]
    dsimp only
    rw [hf]
    exact ih _

theorem HandleAll_completes {F : Type} (ops : Ops F) (client : BW2Client)
    (hr : ∀ ns, ∃ k, client.ResolveRegistry ns = Except.ok k)
    (hc : ∀ log uri, ∃ sub, client.Subscribe log uri = Except.ok sub)
    (hq : ∀ uri, ∃ u, client.Query uri = Except.ok u)
    (vs : List ViewId) (vm : ViewManager F) :
    ∃ vm2, HandleAll ops client vs vm = some vm2 := by
  induction vs generalizing vm with
  | nil => exact ⟨vm, rfl⟩
  | cons v vs ih =>
    unfold HandleAll
    have hh : ∃ res, vm.Handle ops client v = some res := by
      unfold ViewManager.Handle
      obtain ⟨vm0, h0⟩ := subscribeNamespaces_completes client hr hc hq
        (vm.views v).Expr.NamespaceList vm
      rw [h0]
      exact Handle_loop_completes ops client hc v _ _
    obtain ⟨⟨err, vm1⟩, h1⟩ := hh
    rw [h1]
    exact ih vm1

/-- What the lookup at line 153 does give, with namespaces told apart by the text that
names them: after a sequence of `Handle` calls, run one after another from a state whose
record of namespace subscriptions agrees with the map of them, `subscribeNamespaces` has
called `Subscribe` once for each name that was subscribed before or stands in the
expression of a registered view, and for no other, each time on the metadata topic of that
name; and the sequence runs to its end when every call on the client succeeds. Two names
of one namespace, such as `ns` and `ns/`, are two names here. -/
theorem namespace_subscribed_once_per_name {F : Type} (ops : Ops F) (client : BW2Client)
    (vs : List ViewId) (vm : ViewManager F) (hlog : NamespaceLogged vm) :
    (∀ vm2, HandleAll ops client vs vm = some vm2 →
        (∀ ns, (vm2.namespaceCalls.map Prod.fst).count ns
          = if ns ∈ vm.namespaceSubscriptions ∨ ns ∈ namedBy ops client vs vm then 1
            else 0) ∧
        ∀ e ∈ vm2.namespaceCalls, e.2 = metadataTopic e.1) ∧
      ((∀ ns, ∃ k, client.ResolveRegistry ns = Except.ok k) →
        (∀ log uri, ∃ sub, client.Subscribe log uri = Except.ok sub) →
        (∀ uri, ∃ u, client.Query uri = Except.ok u) →
        ∃ vm2, HandleAll ops client vs vm = some vm2) := by
  refine ⟨?_, fun hr hc hq => HandleAll_completes ops client hr hc hq vs vm⟩
  intro vm2 h
  obtain ⟨hlog2, hm⟩ := HandleAll_spec ops client vs vm vm2 hlog h
  refine ⟨?_, hlog2.2.2⟩
  intro ns
  have hiff : ns ∈ vm2.namespaceCalls.map Prod.fst ↔
      (ns ∈ vm.namespaceSubscriptions ∨ ns ∈ namedBy ops client vs vm) := by
    rw [hm, hlog.2.1]
  by_cases hns : ns ∈ vm.namespaceSubscriptions ∨ ns ∈ namedBy ops client vs vm
  · rw [if_pos hns]
    exact List.count_eq_one_of_mem hlog2.1 (hiff.2 hns)
  · rw [if_neg hns]
    exact List.count_eq_zero_of_not_mem (fun hmem => hns (hiff.1 hmem))

theorem namespaceLogged_sampleManagerTwo : NamespaceLogged sampleManagerTwo := by
  refine ⟨List.nodup_nil, ?_, ?_⟩
  · intro ns
    show ns ∈ ([] : List String) ↔ ns ∈ (∅ : GoMap Subscription)
    simp
  · intro e he
    cases he

theorem namespace_subscribed_once_per_name_sample :
    (∀ vm2, HandleAll sampleOps sampleClient [0, 1, 2] sampleManagerTwo = some vm2 →
        (∀ ns, (vm2.namespaceCalls.map Prod.fst).count ns
          = if ns ∈ sampleManagerTwo.namespaceSubscriptions ∨
              ns ∈ namedBy sampleOps sampleClient [0, 1, 2] sampleManagerTwo then 1
            else 0) ∧
        ∀ e ∈ vm2.namespaceCalls, e.2 = metadataTopic e.1) ∧
      ((∀ ns, ∃ k, sampleClient.ResolveRegistry ns = Except.ok k) →
        (∀ log uri, ∃ sub, sampleClient.Subscribe log uri = Except.ok sub) →
        (∀ uri, ∃ u, sampleClient.Query uri = Except.ok u) →
        ∃ vm2, HandleAll sampleOps sampleClient [0, 1, 2] sampleManagerTwo = some vm2) :=
  namespace_subscribed_once_per_name sampleOps sampleClient [0, 1, 2] sampleManagerTwo
    namespaceLogged_sampleManagerTwo

/-- Three `Handle` calls on `sampleManagerTwo`, for views that name `ns`, then `ns` and
`other`, then `ns`: two `Subscribe` calls, one for each namespace. -/
theorem HandleAll_sampleManagerTwo :
    (HandleAll sampleOps sampleClient [0, 1, 2] sampleManagerTwo).map
        (fun vm => (vm.namespaceCalls, vm.subscribeCalls))
      = some ([("ns", "ns/*/!meta/+"), ("other", "other/*/!meta/+")],
          ["ns/*/!meta/+", "other/*/!meta/+"]) := by
  decide

/-- C12: two `Handle` calls, one after another, for a view that names the namespace `ns`
and a view that names the same namespace as `ns/`: line 150 builds the one metadata topic
`ns/*/!meta/+` for both, the lookup at line 153 is by the text as written and finds no
entry for `ns/`, and `Subscribe` is called twice on that topic, not once. -/
theorem C12_topic_subscribed_twice :
    metadataTopic "ns" = "ns/*/!meta/+" ∧ metadataTopic "ns/" = "ns/*/!meta/+" ∧
      (HandleAll sampleOps sampleClient [0, 1] sampleManagerSlash).map
          (fun vm => vm.subscribeCalls) = some ["ns/*/!meta/+", "ns/*/!meta/+"] ∧
      (HandleAll sampleOps sampleClient [0, 1] sampleManagerSlash).map
          (fun vm => vm.subscribeCalls.count (metadataTopic "ns")) = some 2 ∧
      (HandleAll sampleOps sampleClient [0, 1] sampleManagerSlash).map
          (fun vm => vm.namespaceSubscriptions.keys) = some ["ns/", "ns"] ∧
      (ViewManager.subscribeNamespaces sampleClient ["ns", "ns/"] sampleManagerSlash).map
          (fun vm => vm.subscribeCalls) = some ["ns/*/!meta/+", "ns/*/!meta/+"] := by
  decide

/-! ## Lemmas on the order of the prefixes -/

theorem prefix_le (l1 l2 : List Char) (h : l1 <+: l2) : l1 ≤ l2 := by
  induction l1 generalizing l2 with
  | nil => exact List.nil_le
  | cons a as ih =>
    cases l2 with
    | nil => exact absurd h (by simp)
    | cons b bs =>
      obtain ⟨hab, hp⟩ := List.cons_prefix_cons.1 h
      subst hab
      exact List.cons_le_cons a (ih bs hp)

theorem sortReverse_sorted (l : List String) :
    (sortReverse l).Sorted (fun a b : String => b.data ≤ a.data) := by
  haveI : IsTotal String (fun a b : String => b.data ≤ a.data) :=
    ⟨fun a b => le_total b.data a.data⟩
  haveI : IsTrans String (fun a b : String => b.data ≤ a.data) :=
    ⟨fun a b c hab hbc => le_trans hbc hab⟩
  exact List.sorted_insertionSort _ l

theorem sortReverse_perm (l : List String) : (sortReverse l).Perm l :=
  List.perm_insertionSort _ l

theorem mem_sortReverse (l : List String) (x : String) : x ∈ sortReverse l ↔ x ∈ l :=
  (sortReverse_perm l).mem_iff

theorem sortReverse_nodup (l : List String) (h : l.Nodup) : (sortReverse l).Nodup :=
  (sortReverse_perm l).nodup_iff.2 h

theorem string_eq_of_data (a b : String) (h : a.data = b.data) : a = b := by
  cases a
  cases b
  cases h
  rfl

/-- In the reverse-sorted list of prefixes, a prefix that comes after another is the
shorter of the two. -/
theorem shorter_of_after (x a : String) (hne : x ≠ a) (hle : x.data ≤ a.data)
    (hch : x.data <+: a.data ∨ a.data <+: x.data) : x.length < a.length := by
  have hpre : x.data <+: a.data := by
    rcases hch with h | h
    · exact h
    · have : a.data = x.data := le_antisymm (prefix_le _ _ h) hle
      exact absurd (string_eq_of_data _ _ this).symm hne
  have hlen : x.data.length ≤ a.data.length := hpre.length_le
  rcases Nat.lt_or_ge x.data.length a.data.length with h | h
  · exact h
  · exact absurd (string_eq_of_data _ _ (hpre.eq_of_length (le_antisymm hlen h))) hne

theorem sortReverse_tail (getPrefixes : String → List String)
    (hp : PathPrefixes getPrefixes) (q a : String) (l0 rest : List String)
    (hl : sortReverse (getPrefixes q) = l0 ++ a :: rest) :
    sortReverse (getPrefixes a) = rest := by
  obtain ⟨hnodup, hchain, hnest⟩ := hp
  have hsorted := sortReverse_sorted (getPrefixes q)
  have hnd := sortReverse_nodup _ (hnodup q)
  rw [hl] at hsorted hnd
  have hmemq : ∀ x, x ∈ l0 ++ a :: rest ↔ x ∈ getPrefixes q := by
    intro x
    rw [← hl]
    exact mem_sortReverse _ x
  have ha : a ∈ getPrefixes q := (hmemq a).1 (by simp)
  obtain ⟨_, hs2, hs3⟩ := List.pairwise_append.1 hsorted
  obtain ⟨hs4, hs5⟩ := List.pairwise_cons.1 hs2
  obtain ⟨_, hn2, hn3⟩ := List.nodup_append.1 hnd
  obtain ⟨hn4, hn5⟩ := List.nodup_cons.1 hn2
  have hmem : ∀ x, x ∈ rest ↔ x ∈ getPrefixes a := by
    intro x
    rw [hnest q a x ha]
    constructor
    · intro hx
      have hxq : x ∈ getPrefixes q := (hmemq x).1 (by simp [hx])
      refine ⟨hxq, ?_⟩
      exact shorter_of_after x a (fun e => hn4 (e ▸ hx)) (hs4 x hx) (hchain q x a hxq ha)
    · rintro ⟨hxq, hlen⟩
      have hx : x ∈ l0 ++ a :: rest := (hmemq x).2 hxq
      rcases List.mem_append.1 hx with h0 | h0
      · exfalso
        have hle : a.data ≤ x.data := hs3 x h0 a (by simp)
        have hne : a ≠ x := fun e => by
          rw [e] at hlen
          exact Nat.lt_irrefl _ hlen
        have := shorter_of_after a x hne hle ((hchain q x a hxq ha).symm)
        exact Nat.lt_asymm hlen this
      · rcases List.mem_cons.1 h0 with h1 | h1
        · rw [h1] at hlen
          exact absurd hlen (Nat.lt_irrefl _)
        · exact h1
  haveI : IsAntisymm String (fun a b : String => b.data ≤ a.data) :=
    ⟨fun a b hab hba => string_eq_of_data _ _ (le_antisymm hba hab)⟩
  apply List.eq_of_perm_of_sorted _ (sortReverse_sorted (getPrefixes a)) hs5
  rw [List.perm_ext_iff_of_nodup (sortReverse_nodup _ (hnodup a)) hn5]
  intro x
  rw [mem_sortReverse, hmem]

theorem firstDefined_cons (t : TieredSmapMessage) (k a : String) (l : List String) :
    firstDefined t k (a :: l)
      = ((t.lookup a).bind (fun m => m.Metadata.lookup k)).or (firstDefined t k l) := by
  unfold firstDefined
  rw [List.findSome?_cons]
  cases (t.lookup a).bind (fun m => m.Metadata.lookup k) <;> rfl

theorem firstDefined_congr (t t' : TieredSmapMessage) (k : String) (l : List String)
    (h : ∀ q ∈ l, (t.lookup q).bind (fun m => m.Metadata.lookup k)
      = (t'.lookup q).bind (fun m => m.Metadata.lookup k)) :
    firstDefined t k l = firstDefined t' k l := by
  induction l with
  | nil => rfl
  | cons a as ih =>
    rw [firstDefined_cons, firstDefined_cons, h a (by simp),
      ih (fun q hq => h q (List.mem_cons_of_mem _ hq))]

/-- The first prefix, in reverse-sorted order, that defines `k` is the longest one that
does. -/
theorem firstDefined_longest (getPrefixes : String → List String)
    (hp : PathPrefixes getPrefixes) (t : TieredSmapMessage) (p k d v : String)
    (dmsg : SmapMessage) (hd : d ∈ getPrefixes p) (hdm : t.lookup d = some dmsg)
    (hv : dmsg.Metadata.lookup k = some v)
    (hlong : ∀ q ∈ getPrefixes p, ∀ qmsg, t.lookup q = some qmsg →
      (qmsg.Metadata.lookup k).isSome = true → q.length ≤ d.length) :
    firstDefined t k (sortReverse (getPrefixes p)) = some v := by
  obtain ⟨l0, rest, hl⟩ := List.append_of_mem ((mem_sortReverse _ d).2 hd)
  have hsorted := sortReverse_sorted (getPrefixes p)
  have hnd := sortReverse_nodup _ (hp.1 p)
  rw [hl] at hsorted hnd
  obtain ⟨_, _, hs3⟩ := List.pairwise_append.1 hsorted
  obtain ⟨_, _, hn3⟩ := List.nodup_append.1 hnd
  have hnone : firstDefined t k l0 = none := by
    unfold firstDefined
    rw [List.findSome?_eq_none_iff]
    intro x hx
    have hxp : x ∈ getPrefixes p := (mem_sortReverse _ x).1 (by rw [hl]; simp [hx])
    have hne : d ≠ x := fun e => hn3 hx (by rw [← e]; simp)
    have hlt : d.length < x.length :=
      shorter_of_after d x hne (hs3 x hx d (by simp)) ((hp.2.1 p x d hxp hd).symm)
    cases hxm : t.lookup x with
    | none => rfl
    | some xm =>
      cases hxk : xm.Metadata.lookup k with
      | none => simp [hxk]
      | some w =>
        have := hlong x hxp xm hxm (by rw [hxk]; rfl)
        exact absurd hlt (Nat.not_lt.2 this)
  rw [hl]
  unfold firstDefined at hnone ⊢
  rw [List.findSome?_append, hnone, Option.none_or, List.findSome?_cons, hdm]
  simp [hv]

/-! ## Lemmas on the inheritance of metadata keys -/

theorem lookup_of_no_entries (d : Dict) (k : String) (h : ¬ d.entries.length > 0) :
    d.lookup k = none := by
  rw [AList.lookup_eq_none, AList.mem_keys]
  have : d.entries = [] := List.eq_nil_of_length_eq_zero (by omega)
  unfold AList.keys
  rw [this]
  simp [List.keys]

theorem collapseStep_ne (path : String) (s : TieredSmapMessage) (pfx q : String)
    (h : q ≠ path) : (collapseStep path s pfx).lookup q = s.lookup q := by
  unfold collapseStep
  split
  · rfl
  · split
    · rfl
    · split
      · rfl
      · exact AList.lookup_insert_ne h

theorem collapseStep_self (path : String) (s : TieredSmapMessage) (pfx : String)
    (m : SmapMessage) (hm : s.lookup path = some m) :
    ∃ m', (collapseStep path s pfx).lookup path = some m' ∧ m'.UUID = m.UUID ∧
      ∀ k, m'.Metadata.lookup k
        = (m.Metadata.lookup k).or ((s.lookup pfx).bind (fun x => x.Metadata.lookup k)) := by
  unfold collapseStep
  rw [hm]
  dsimp only
  cases hq : s.lookup pfx with
  | none =>
    exact ⟨m, hm, rfl, fun k => by simp⟩
  | some pm =>
    dsimp only
    split
    · rename_i hno
      refine ⟨m, hm, rfl, fun k => ?_⟩
      have hempty : ¬ pm.Metadata.entries.length > 0 := by
        intro hpos
        unfold SmapMessage.HasMetadata at hno
        simp [hpos] at hno
      rw [Option.some_bind, lookup_of_no_entries _ k hempty, Option.or_none]
    · refine ⟨applyPrefix pm m, AList.lookup_insert _, applyPrefix_UUID pm m, fun k => ?_⟩
      rw [applyPrefix_Metadata, Option.some_bind]
      split
      · rw [inheritKeys_lookup]
        cases m.Metadata.lookup k <;> rfl
      · rename_i hempty
        rw [lookup_of_no_entries _ k hempty, Option.or_none]

theorem foldl_collapseStep_ne (path : String) (l : List String) (s : TieredSmapMessage)
    (q : String) (h : q ≠ path) : (l.foldl (collapseStep path) s).lookup q = s.lookup q := by
  induction l generalizing s with
  | nil => rfl
  | cons a as ih => rw [List.foldl_cons, ih, collapseStep_ne path s a q h]

theorem foldl_collapseStep_self (path : String) (l : List String) (s : TieredSmapMessage)
    (m : SmapMessage) (hm : s.lookup path = some m) :
    ∃ m', (l.foldl (collapseStep path) s).lookup path = some m' ∧ m'.UUID = m.UUID ∧
      ∀ k, m'.Metadata.lookup k = (m.Metadata.lookup k).or (firstDefined s k l) := by
  induction l generalizing s m with
  | nil => exact ⟨m, hm, rfl, fun k => by simp [firstDefined]⟩
  | cons a as ih =>
    rw [List.foldl_cons]
    obtain ⟨m1, hm1, hu1, hk1⟩ := collapseStep_self path s a m hm
    obtain ⟨m2, hm2, hu2, hk2⟩ := ih (collapseStep path s a) m1 hm1
    refine ⟨m2, hm2, hu2.trans hu1, fun k => ?_⟩
    rw [hk2, hk1, firstDefined_cons, Option.or_assoc]
    cases hmk : m.Metadata.lookup k with
    | some v => simp
    | none =>
      cases hak : (s.lookup a).bind (fun x => x.Metadata.lookup k) with
      | some w => simp
      | none =>
        rw [Option.none_or, Option.none_or, Option.none_or, Option.none_or]
        apply firstDefined_congr
        intro q _
        by_cases hq : q = path
        · subst hq
          rw [hm1, hm, Option.some_bind, Option.some_bind, hk1, hmk, hak]
          rfl
        · rw [collapseStep_ne path s a q hq]

theorem collapsePath_ne (getPrefixes : String → List String) (s : TieredSmapMessage)
    (path q : String) (h : q ≠ path) :
    (collapsePath getPrefixes s path).lookup q = s.lookup q := by
  unfold collapsePath
  split
  · rfl
  · split
    · rfl
    · exact foldl_collapseStep_ne path _ s q h

theorem collapsePath_self (getPrefixes : String → List String) (s : TieredSmapMessage)
    (path : String) (m : SmapMessage) (hm : s.lookup path = some m) :
    ∃ m', (collapsePath getPrefixes s path).lookup path = some m' ∧ m'.UUID = m.UUID ∧
      ∀ k, m'.Metadata.lookup k
        = if m.IsTimeseries then
            (m.Metadata.lookup k).or (firstDefined s k (sortReverse (getPrefixes path)))
          else m.Metadata.lookup k := by
  unfold collapsePath
  rw [hm]
  dsimp only
  cases hts : m.IsTimeseries with
  | false => exact ⟨m, hm, rfl, fun k => by simp⟩
  | true =>
    obtain ⟨m', h1, h2, h3⟩ := foldl_collapseStep_self path
      (sortReverse (getPrefixes path)) s m hm
    exact ⟨m', by simpa using h1, h2, fun k => by simpa using h3 k⟩

theorem firstDefined_of_inv (getPrefixes : String → List String)
    (hp : PathPrefixes getPrefixes) (orig s : TieredSmapMessage)
    (hinv : InheritInv getPrefixes orig s) (q k : String) :
    firstDefined s k (sortReverse (getPrefixes q))
      = firstDefined orig k (sortReverse (getPrefixes q)) := by
  have key : ∀ (l1 l0 : List String), sortReverse (getPrefixes q) = l0 ++ l1 →
      firstDefined s k l1 = firstDefined orig k l1 := by
    intro l1
    induction l1 with
    | nil => intro _ _; rfl
    | cons a rest ih =>
      intro l0 hl
      have hrest := ih (l0 ++ [a]) (by rw [hl]; simp)
      have htail := sortReverse_tail getPrefixes hp q a l0 rest hl
      rw [firstDefined_cons, firstDefined_cons, hrest]
      cases ha : orig.lookup a with
      | none => rw [hinv.1 a ha]
      | some a0 =>
        obtain ⟨am, ham, _, hk⟩ := hinv.2 a a0 ha
        rw [ham, Option.some_bind, Option.some_bind]
        rcases hk k with h | ⟨h0, h1⟩
        · rw [h]
        · rw [h0, h1, htail, Option.or_self, Option.none_or]
  exact key _ [] rfl

theorem collapsePath_inv (getPrefixes : String → List String)
    (hp : PathPrefixes getPrefixes) (orig s : TieredSmapMessage)
    (hinv : InheritInv getPrefixes orig s) (path : String) :
    InheritInv getPrefixes orig (collapsePath getPrefixes s path) ∧
      (∀ q, InheritDone getPrefixes orig s q →
        InheritDone getPrefixes orig (collapsePath getPrefixes s path) q) ∧
      ((∃ m0, orig.lookup path = some m0 ∧ m0.IsTimeseries = true) →
        InheritDone getPrefixes orig (collapsePath getPrefixes s path) path) := by
  cases hpath : orig.lookup path with
  | none =>
    have hs : s.lookup path = none := hinv.1 path hpath
    have hsame : collapsePath getPrefixes s path = s := by
      unfold collapsePath
      rw [hs]
    rw [hsame]
    refine ⟨hinv, fun q h => h, ?_⟩
    rintro ⟨m0, h0, _⟩
    cases h0
  | some m0 =>
    obtain ⟨m, hm, hu, hk⟩ := hinv.2 path m0 hpath
    obtain ⟨m', hm', hu', hk'⟩ := collapsePath_self getPrefixes s path m hm
    have hfd := firstDefined_of_inv getPrefixes hp orig s hinv path
    have hts : m.IsTimeseries = m0.IsTimeseries := by
      unfold SmapMessage.IsTimeseries
      rw [hu]
    refine ⟨⟨?_, ?_⟩, ?_, ?_⟩
    · intro q hq
      have hne : q ≠ path := fun e => by
        rw [e, hpath] at hq
        cases hq
      rw [collapsePath_ne getPrefixes s path q hne]
      exact hinv.1 q hq
    · intro q q0 hq
      by_cases hne : q = path
      · subst hne
        rw [hpath] at hq
        cases hq
        refine ⟨m', hm', hu'.trans hu, fun k => ?_⟩
        rw [hk' k, hfd k]
        cases m.IsTimeseries with
        | false => exact hk k
        | true =>
          rw [if_pos rfl]
          rcases hk k with h | ⟨h0, h1⟩
          · cases h00 : m0.Metadata.lookup k with
            | some v =>
              left
              rw [h, h00, Option.or_some]
            | none =>
              right
              rw [h, h00, Option.none_or]
              exact ⟨rfl, rfl⟩
          · right
            rw [h1, Option.or_self]
            exact ⟨h0, rfl⟩
      · rw [collapsePath_ne getPrefixes s path q hne]
        exact hinv.2 q q0 hq
    · intro q hdone
      by_cases hne : q = path
      · subst hne
        intro q0 hq
        rw [hpath] at hq
        cases hq
        obtain ⟨mm, hmm, hkk⟩ := hdone m0 hpath
        rw [hm] at hmm
        cases hmm
        refine ⟨m', hm', fun k => ?_⟩
        rw [hk' k, hfd k]
        cases m.IsTimeseries with
        | false => exact hkk k
        | true =>
          rw [if_pos rfl, hkk k, Option.or_assoc, Option.or_self]
      · intro q0 hq
        rw [collapsePath_ne getPrefixes s path q hne]
        exact hdone q0 hq
    · rintro ⟨m1, h1, hts1⟩
      cases h1
      intro q0 hq
      rw [hpath] at hq
      cases hq
      refine ⟨m', hm', fun k => ?_⟩
      rw [hk' k, hfd k, hts, hts1, if_pos rfl]
      rcases hk k with h | ⟨h0, h1⟩
      · rw [h]
      · rw [h0, h1, Option.or_self, Option.none_or]

theorem foldl_collapsePath_inv (getPrefixes : String → List String)
    (hp : PathPrefixes getPrefixes) (orig : TieredSmapMessage) (l : List String)
    (s : TieredSmapMessage) (hinv : InheritInv getPrefixes orig s) :
    InheritInv getPrefixes orig (l.foldl (collapsePath getPrefixes) s) ∧
      (∀ q, InheritDone getPrefixes orig s q →
        InheritDone getPrefixes orig (l.foldl (collapsePath getPrefixes) s) q) ∧
      ∀ q ∈ l, (∃ m0, orig.lookup q = some m0 ∧ m0.IsTimeseries = true) →
        InheritDone getPrefixes orig (l.foldl (collapsePath getPrefixes) s) q := by
  induction l generalizing s with
  | nil => exact ⟨hinv, fun _ h => h, fun q hq => by cases hq⟩
  | cons a as ih =>
    rw [List.foldl_cons]
    obtain ⟨h1, h2, h3⟩ := collapsePath_inv getPrefixes hp orig s hinv a
    obtain ⟨i1, i2, i3⟩ := ih (collapsePath getPrefixes s a) h1
    refine ⟨i1, fun q hq => i2 q (h2 q hq), ?_⟩
    intro q hq hts
    rcases List.mem_cons.1 hq with e | e
    · subst e
      exact i2 q (h3 hts)
    · exact i3 q e hts

theorem inheritInv_refl (getPrefixes : String → List String) (orig : TieredSmapMessage) :
    InheritInv getPrefixes orig orig :=
  ⟨fun _ h => h, fun _ m0 h => ⟨m0, h, rfl, fun _ => Or.inl rfl⟩⟩

/-- C15: for a timeseries at `p` whose message does not define the metadata key `k`,
when `d` is the longest of the prefixes of `p` whose message in the map defines `k`, with
value `v`, the message at `p` after `CollapseToTimeseries` has `Metadata[k] = v`.
Assumed of `getPrefixes`: `PathPrefixes`. -/
theorem C15_nearest_ancestor (getPrefixes : String → List String)
    (hp : PathPrefixes getPrefixes) (tsm : TieredSmapMessage) (p k d v : String)
    (msg dmsg : SmapMessage) (hmsg : tsm.lookup p = some msg)
    (hts : msg.IsTimeseries = true) (hk : msg.Metadata.lookup k = none)
    (hd : d ∈ getPrefixes p) (hdm : tsm.lookup d = some dmsg)
    (hv : dmsg.Metadata.lookup k = some v)
    (hlong : ∀ q ∈ getPrefixes p, ∀ qmsg, tsm.lookup q = some qmsg →
      (qmsg.Metadata.lookup k).isSome = true → q.length ≤ d.length) :
    ∃ msg', (CollapseToTimeseries getPrefixes tsm).lookup p = some msg' ∧
      msg'.Metadata.lookup k = some v := by
  obtain ⟨hinv, _, hdone⟩ := foldl_collapsePath_inv getPrefixes hp tsm tsm.keys tsm
    (inheritInv_refl getPrefixes tsm)
  have hpk : p ∈ tsm.keys := by
    rw [← AList.mem_keys, ← AList.lookup_isSome, hmsg]
    rfl
  obtain ⟨m, hm, hmk⟩ := hdone p hpk ⟨msg, hmsg, hts⟩ msg hmsg
  obtain ⟨m1, hm1, hu1, _⟩ := hinv.2 p msg hmsg
  rw [hm] at hm1
  cases hm1
  refine ⟨m, ?_, ?_⟩
  · rw [CollapseToTimeseries_lookup, hm]
    have : m.IsTimeseries = true := by
      unfold SmapMessage.IsTimeseries at hts ⊢
      rw [hu1]
      exact hts
    simp [this]
  · rw [hmk k, hk, Option.none_or]
    exact firstDefined_longest getPrefixes hp tsm p k d v dmsg hd hdm hv hlong

theorem pathPrefixes_samplePrefixes : PathPrefixes samplePrefixes := by
  refine ⟨?_, ?_, ?_⟩
  · intro p
    unfold samplePrefixes
    split
    · decide
    · split <;> decide
  · intro p q q' hq hq'
    have hmem : ∀ x, x ∈ samplePrefixes p → x = "/" ∨ x = "/a" := by
      intro x hx
      unfold samplePrefixes at hx
      split at hx
      · simpa using hx
      · split at hx
        · left
          simpa using hx
        · cases hx
    rcases hmem q hq with rfl | rfl <;> rcases hmem q' hq' with rfl | rfl <;> decide
  · intro p q q' hq
    unfold samplePrefixes at hq
    split at hq
    · rename_i hp
      subst hp
      simp only [List.mem_cons, List.mem_singleton, List.not_mem_nil, or_false] at hq
      rcases hq with rfl | rfl
      · constructor
        · intro h
          exact absurd h (by simp [samplePrefixes])
        · rintro ⟨h1, h2⟩
          simp only [samplePrefixes, if_true, List.mem_cons, List.mem_singleton,
            List.not_mem_nil, or_false] at h1
          rcases h1 with rfl | rfl
          · exact absurd h2 (by decide)
          · exact absurd h2 (by decide)
      · constructor
        · intro h
          have h' : q' = "/" := by simpa [samplePrefixes] using h
          subst h'
          exact ⟨by simp [samplePrefixes], by decide⟩
        · rintro ⟨h1, h2⟩
          simp only [samplePrefixes, if_true, List.mem_cons, List.mem_singleton,
            List.not_mem_nil, or_false] at h1
          rcases h1 with rfl | rfl
          · simp [samplePrefixes]
          · exact absurd h2 (by decide)
    · split at hq
      · rename_i hp
        subst hp
        simp only [List.mem_singleton] at hq
        subst hq
        constructor
        · intro h
          exact absurd h (by simp [samplePrefixes])
        · rintro ⟨h1, h2⟩
          have h' : q' = "/" := by simpa [samplePrefixes] using h1
          subst h'
          exact absurd h2 (by decide)
      · cases hq

theorem C15_nearest_ancestor_witness :
    ∃ msg', (CollapseToTimeseries samplePrefixes sampleTieredDeep).lookup "/a/b" = some msg' ∧
      msg'.Metadata.lookup "units" = some "W" :=
  C15_nearest_ancestor samplePrefixes pathPrefixes_samplePrefixes sampleTieredDeep "/a/b"
    "units" "/a" "W" sampleChildBare sampleParent rfl (by decide) (by decide) (by decide)
    rfl (by decide)
    (fun q hq _ _ _ => by
      have h : q = "/" ∨ q = "/a" := by simpa [samplePrefixes] using hq
      rcases h with rfl | rfl <;> decide)

/-- The map `sampleTieredDeep` after `CollapseToTimeseries`: the timeseries at `/a/b` has
`units = W`, the value at `/a`, not the value `V` at the root. -/
theorem Collapse_sampleTieredDeep :
    (CollapseToTimeseries samplePrefixes sampleTieredDeep).entries.map
        (fun e => (e.1, e.2.Metadata.entries))
      = [("/a/b", [⟨"units", "W"⟩])] := by
  decide

/-! ## Claims on the passes of `checkViews`, the index invariant and the safety of
`GetRecords` -/

/-- A record whose path is a key of the `MatchSet` of `viewList[0]` goes through the loop
of `checkViews` with no call of `startForwarding`, whatever the value under the key: only
the `MatchSet` entries of the views change. -/
theorem matchLoop_of_key {F : Type} (ops : Ops F) (client : BW2Client)
    (viewList : List ViewId) (view : ViewId) (r : MetadataRecord)
    (rest : List MetadataRecord) (vm : ViewManager F)
    (h : r.URI ∈ (vm.views view).MatchSet) :
    checkViews.matchLoop ops client viewList view (r :: rest) vm
      = checkViews.matchLoop ops client viewList view rest
          { vm with views := setMatchAll r.URI viewList vm.views } := by
  have hs : ((vm.views view).MatchSet.lookup r.URI).isSome = true := AList.lookup_isSome.2 h
  conv_lhs => unfold checkViews.matchLoop
  simp [hs]

/-- C21 (the code at the failing input): on `sampleManager` a first pass starts forwarding
the path of `sampleRecord`; the record is deleted and a second pass stops it
(`sampleSecondPass`); the record is inserted again and a third pass runs
(`sampleThirdPass`). Before the third pass view 0 has `MatchSet[path] = false`; after it
the path is in the result of `Exec` and view 0 has `MatchSet[path] = true`, yet the
forwarder holds no view and was sent one message, that of the first pass, and `Subscribe`
was called once: the third pass did not call `startForwarding`. -/
theorem C21_rematch_not_forwarded :
    sampleSecondPass.map (fun vm2 => (vm2.views 0).MatchSet.lookup "ns/dev/*")
        = some (some false) ∧
      sampleThirdPass.map (fun vm3 => (vm3.db.Exec sampleExpression).1.map MetadataRecord.URI)
        = some ["ns/dev/*"] ∧
      sampleThirdPass.map (fun vm3 => (vm3.views 0).MatchSet.lookup "ns/dev/*")
        = some (some true) ∧
      sampleThirdPass.map
          (fun vm3 => (vm3.forwarders.lookup "ns/dev/*").map (fun f => (f.views, f.sent)))
        = some (some ([], [none])) ∧
      sampleThirdPass.map (fun vm3 => vm3.subscribeCalls) = some ["ns/dev/*"] := by
  refine ⟨by decide, by decide, by decide, by decide, by decide⟩

theorem valid_of_reachable (mm : memoryMetadataDB) (h : Reachable mm) :
    ∀ u x, mm.records.lookup u = some x → x.Valid = true := by
  induction h with
  | init =>
    intro u x hx
    simp [CreateSmallMetadataDB] at hx
  | step mm rec _ ih =>
    unfold memoryMetadataDB.Insert
    cases rec with
    | none => exact ih
    | some r =>
      dsimp only
      split
      · exact ih
      · rename_i hv
        split
        · intro u x hx
          dsimp only at hx
          by_cases hu : u = r.URI
          · subst hu
            simp at hx
          · rw [AList.lookup_erase_ne hu] at hx
            exact ih u x hx
        · intro u x hx
          dsimp only at hx
          by_cases hu : u = r.URI
          · subst hu
            rw [AList.lookup_insert] at hx
            cases hx
            simpa using hv
          · rw [AList.lookup_insert_ne hu] at hx
            exact ih u x hx

/-- C22: in an index reached from the empty one by `Insert` calls, of valid, invalid or
nil records, every stored entry is filed under its own `URI` and satisfies `Valid`. -/
theorem C22_index_invariant (mm : memoryMetadataDB) (h : Reachable mm) (u : String)
    (x : MetadataRecord) (hx : mm.records.lookup u = some x) :
    x.URI = u ∧ x.Valid = true :=
  ⟨keyedByURI_of_reachable mm h u x hx, valid_of_reachable mm h u x hx⟩

theorem C22_index_invariant_witness :
    (((CreateSmallMetadataDB.Insert (some sampleInvalid)).2.Insert none).2.Insert
        (some sampleRecord)).2.records.lookup "ns/dev/*" = some sampleRecord ∧
      sampleRecord.URI = "ns/dev/*" ∧ sampleRecord.Valid = true :=
  ⟨by decide,
    C22_index_invariant
      (((CreateSmallMetadataDB.Insert (some sampleInvalid)).2.Insert none).2.Insert
        (some sampleRecord)).2
      (Reachable.step _ _ (Reachable.step _ _ (Reachable.step _ _ Reachable.init)))
      "ns/dev/*" sampleRecord (by decide)⟩

theorem splitOn_length_of_mem (sep : Char) (l : List Char) (h : sep ∈ l) :
    2 ≤ (splitOn sep l).length := by
  induction l with
  | nil => cases h
  | cons c cs ih =>
    unfold splitOn
    split
    · have := List.length_pos.2 (splitOn_ne_nil sep cs)
      simp only [List.length_cons]
      omega
    · rename_i hc
      have hcs : sep ∈ cs := by
        rcases List.mem_cons.1 h with e | e
        · exact absurd e.symm hc
        · exact e
      have := ih hcs
      split
      · rename_i hnil
        exact absurd hnil (splitOn_ne_nil sep cs)
      · rename_i p ps hps
        rw [hps] at this
        simpa using this

theorem Split_length_iff (s : String) :
    2 ≤ (strings.Split s '/').length ↔ '/' ∈ s.data := by
  unfold strings.Split
  rw [List.length_map]
  constructor
  · intro h
    by_contra hn
    rw [splitOn_of_not_mem '/' s.data hn] at h
    simp at h
  · exact splitOn_length_of_mem '/' s.data

/-- C23: `GetRecords` returns exactly when the topic splits into at least two segments,
which is when it holds a slash; on a topic with no slash it panics, whatever the payload
objects are, also when there is none. -/
theorem C23_GetRecords_safe (now : Nat → Int) (msg : SimpleMessage) :
    ((∃ recs, GetRecords now msg = some recs) ↔ 2 ≤ (strings.Split msg.URI '/').length) ∧
      (GetRecords now msg = none ↔ '/' ∉ msg.URI.data) := by
  have hsome : 2 ≤ (strings.Split msg.URI '/').length →
      ∃ recs, GetRecords now msg = some recs := by
    intro h
    have hne : strings.Split msg.URI '/' ≠ [] := by
      intro e
      rw [e] at h
      simp at h
    obtain ⟨recs, h1, _, _⟩ := GetRecords_loop_spec now msg (strings.Split msg.URI '/')
      (strings.Join ((strings.Split msg.URI '/').take
        ((strings.Split msg.URI '/').length - 2)) "/" ++ "/*") _ _
      (List.getLast?_eq_getLast _ hne) (List.head?_eq_head hne) msg.POs (fun hp => hp) 0 []
    refine ⟨recs, ?_⟩
    unfold GetRecords
    dsimp only
    rw [if_neg (by omega)]
    exact h1
  have hnone : ¬ 2 ≤ (strings.Split msg.URI '/').length → GetRecords now msg = none := by
    intro h
    unfold GetRecords
    dsimp only
    rw [if_pos (by omega)]
  constructor
  · constructor
    · rintro ⟨recs, hr⟩
      by_contra hn
      rw [hnone hn] at hr
      cases hr
    · exact hsome
  · rw [← Split_length_iff]
    constructor
    · intro hn h2
      obtain ⟨recs, hr⟩ := hsome h2
      rw [hn] at hr
      cases hr
    · exact hnone

/-- The message `sampleMessageFlat`, on a topic with no slash and with no payload object:
`GetRecords` panics. -/
theorem GetRecords_sampleMessageFlat :
    sampleMessageFlat.POs = [] ∧ GetRecords (fun _ => 1) sampleMessageFlat = none := by
  decide

/-! ## Claims on the visiting order of `CollapseToTimeseries` -/

/-- The metadata of the map after `CollapseToTimeseries`, in closed form: a timeseries
has, under each key, the value it had or else the value of the first prefix, in
reverse-sorted order, whose message in the input defines the key. Assumed of
`getPrefixes`: `PathPrefixes`. -/
theorem Collapse_Metadata (getPrefixes : String → List String)
    (hp : PathPrefixes getPrefixes) (tsm : TieredSmapMessage) (p k : String) :
    ((CollapseToTimeseries getPrefixes tsm).lookup p).map (fun m => m.Metadata.lookup k)
      = (tsm.lookup p).bind (fun m0 =>
          if m0.IsTimeseries then
            some ((m0.Metadata.lookup k).or
              (firstDefined tsm k (sortReverse (getPrefixes p))))
          else none) := by
  obtain ⟨hinv, _, hdone⟩ := foldl_collapsePath_inv getPrefixes hp tsm tsm.keys tsm
    (inheritInv_refl getPrefixes tsm)
  rw [CollapseToTimeseries_lookup]
  cases hm0 : tsm.lookup p with
  | none =>
    rw [hinv.1 p hm0]
    rfl
  | some m0 =>
    obtain ⟨m, hm, hu, _⟩ := hinv.2 p m0 hm0
    have hts : m.IsTimeseries = m0.IsTimeseries := by
      unfold SmapMessage.IsTimeseries
      rw [hu]
    rw [hm, Option.some_bind]
    dsimp only
    rw [hts]
    cases h0 : m0.IsTimeseries with
    | false => simp
    | true =>
      have hpk : p ∈ tsm.keys := by
        rw [← AList.mem_keys, ← AList.lookup_isSome, hm0]
        rfl
      obtain ⟨m1, hm1, hk1⟩ := hdone p hpk ⟨m0, hm0, h0⟩ m0 hm0
      rw [hm] at hm1
      cases hm1
      simp [hk1 k]

/-- The metadata after `CollapseToTimeseries` does not depend on the order of the entries
of the input map. Assumed of `getPrefixes`: `PathPrefixes`. -/
theorem Collapse_Metadata_order_free (getPrefixes : String → List String)
    (hp : PathPrefixes getPrefixes) (t1 t2 : TieredSmapMessage)
    (hperm : t1.entries.Perm t2.entries) (p k : String) :
    ((CollapseToTimeseries getPrefixes t1).lookup p).map (fun m => m.Metadata.lookup k)
      = ((CollapseToTimeseries getPrefixes t2).lookup p).map
          (fun m => m.Metadata.lookup k) := by
  have hl : ∀ q, t1.lookup q = t2.lookup q := fun q => AList.perm_lookup hperm
  rw [Collapse_Metadata getPrefixes hp, Collapse_Metadata getPrefixes hp, hl p,
    firstDefined_congr t1 t2 k _ (fun q _ => by rw [hl q])]

/-- C24 (the code at the failing input): the maps `sampleTieredLeafFirst` and
`sampleTieredMiddleFirst` have the same entries, visited in different orders, and after
`CollapseToTimeseries` the timeseries at `/a/b` has unit of time 0 in the first and 1 in
the second. -/
theorem C24_order_dependent :
    sampleTieredLeafFirst.entries.Perm sampleTieredMiddleFirst.entries ∧
      ((CollapseToTimeseries samplePrefixes sampleTieredLeafFirst).lookup "/a/b").map
        (fun msg => msg.Properties.unitOfTime) = some 0 ∧
      ((CollapseToTimeseries samplePrefixes sampleTieredMiddleFirst).lookup "/a/b").map
        (fun msg => msg.Properties.unitOfTime) = some 1 := by
  refine ⟨?_, by decide, by decide⟩
  exact AList.insert_insert_of_ne _ (by decide)

/-! ## Claims on `flatten` -/

theorem dotted_injective (k a b : String) (h : k ++ "." ++ a = k ++ "." ++ b) : a = b := by
  have hd : (k ++ "." ++ a).data = (k ++ "." ++ b).data := by rw [h]
  rw [String.data_append, String.data_append] at hd
  exact string_eq_of_data a b (List.append_cancel_left hd)

theorem flatten_foldl_dotted (k kk : String)
    (es : List (Sigma (fun _ : String => BsonValue))) (hes : es.NodupKeys)
    (ret : GoMap BsonValue) :
    AList.lookup (k ++ "." ++ kk)
        (es.foldl (fun r e => r.insert (k ++ "." ++ e.1) e.2) ret)
      = match List.dlookup kk es with
        | some x => some x
        | none => AList.lookup (k ++ "." ++ kk) ret := by
  induction es generalizing ret with
  | nil => rfl
  | cons e es ih =>
    cases e with
    | mk a b =>
      rw [List.foldl_cons, ih (List.nodupKeys_cons.1 hes).2]
      by_cases ha : kk = a
      · subst ha
        have hnot : kk ∉ es.keys := (List.nodupKeys_cons.1 hes).1
        rw [List.dlookup_cons_eq, List.dlookup_eq_none.2 hnot]
        exact AList.lookup_insert _
      · rw [List.dlookup_cons_ne _ _ ha]
        have hne : k ++ "." ++ kk ≠ k ++ "." ++ a := fun h => ha (dotted_injective k kk a h)
        cases List.dlookup kk es with
        | some x => rfl
        | none => exact AList.lookup_insert_ne hne

theorem flatten_foldl_other (k key : String)
    (es : List (Sigma (fun _ : String => BsonValue)))
    (hkey : ∀ e ∈ es, key ≠ k ++ "." ++ e.1) (ret : GoMap BsonValue) :
    AList.lookup key (es.foldl (fun r e => r.insert (k ++ "." ++ e.1) e.2) ret)
      = AList.lookup key ret := by
  induction es generalizing ret with
  | nil => rfl
  | cons e es ih =>
    rw [List.foldl_cons, ih (fun e' he' => hkey e' (List.mem_cons_of_mem _ he'))]
    exact AList.lookup_insert_ne (hkey e (List.mem_cons_self _ _))

theorem plain_dict (m : BsonM) : BsonValue.plain (BsonValue.dict m) = BsonM.plain m := by
  conv_lhs => unfold BsonValue.plain

theorem plain_nested (m : BsonM) : BsonValue.plain (BsonValue.nested m) = false := by
  unfold BsonValue.plain
  rfl

theorem plain_cons (k : String) (v : BsonValue) (rest : BsonM) :
    BsonM.plain (BsonM.cons k v rest) = (BsonValue.plain v && BsonM.plain rest) := by
  conv_lhs => unfold BsonM.plain

mutual
theorem flatten_entry_spec (ret : GoMap BsonValue) (k : String) (v : BsonValue)
    (hp : BsonValue.plain v = true)
    (hnd : ((chainsOfEntry k v).map Prod.fst).Nodup) (key : String) :
    (∀ x, (key, x) ∈ chainsOfEntry k v →
        (flatten.entry ret k v).lookup key = some (BsonValue.leaf x)) ∧
      (key ∉ (chainsOfEntry k v).map Prod.fst →
        (flatten.entry ret k v).lookup key = ret.lookup key) := by
  match v with
  | BsonValue.leaf x0 =>
    unfold flatten.entry chainsOfEntry
    constructor
    · intro x hx
      simp only [List.mem_singleton, Prod.mk.injEq] at hx
      obtain ⟨h1, h2⟩ := hx
      subst h1
      subst h2
      exact AList.lookup_insert _
    · intro hkey
      simp only [List.map_cons, List.map_nil, List.mem_singleton] at hkey
      exact AList.lookup_insert_ne hkey
  | BsonValue.nested m =>
    rw [plain_nested] at hp
    exact absurd hp (by decide)
  | BsonValue.dict m =>
    rw [plain_dict] at hp
    have hmap : (chainsOfEntry k (BsonValue.dict m)).map Prod.fst
        = ((chainsOf m).map Prod.fst).map (fun kk => k ++ "." ++ kk) := by
      unfold chainsOfEntry
      rw [List.map_map, List.map_map]
      rfl
    have hndm : ((chainsOf m).map Prod.fst).Nodup := by
      rw [hmap] at hnd
      exact List.Nodup.of_map _ hnd
    unfold flatten.entry
    constructor
    · intro x hx
      unfold chainsOfEntry at hx
      obtain ⟨⟨kk, x'⟩, hmem, heq⟩ := List.mem_map.1 hx
      simp only [Prod.mk.injEq] at heq
      obtain ⟨h1, h2⟩ := heq
      subst h1
      subst h2
      have hin := (flatten_loop_spec ∅ m hp hndm kk).1 x' hmem
      rw [flatten_foldl_dotted k kk _ (flatten.loop ∅ m).nodupKeys ret]
      change AList.lookup kk (flatten.loop ∅ m) = _ at hin
      unfold AList.lookup at hin
      rw [hin]
    · intro hkey
      apply flatten_foldl_other
      intro e he hk
      apply hkey
      rw [hmap, hk]
      apply List.mem_map_of_mem
      by_contra hnot
      have hnone := (flatten_loop_spec ∅ m hp hndm e.1).2 hnot
      have hsome : AList.lookup e.1 (flatten.loop ∅ m) = some e.2 := by
        cases e with
        | mk a b => exact AList.mem_lookup_iff.2 he
      rw [hnone] at hsome
      simp at hsome
theorem flatten_loop_spec (ret : GoMap BsonValue) (m : BsonM)
    (hp : BsonM.plain m = true)
    (hnd : ((chainsOf m).map Prod.fst).Nodup) (key : String) :
    (∀ x, (key, x) ∈ chainsOf m →
        (flatten.loop ret m).lookup key = some (BsonValue.leaf x)) ∧
      (key ∉ (chainsOf m).map Prod.fst →
        (flatten.loop ret m).lookup key = ret.lookup key) := by
  match m with
  | BsonM.nil =>
    unfold flatten.loop chainsOf
    exact ⟨fun x hx => absurd hx (List.not_mem_nil _), fun _ => rfl⟩
  | BsonM.cons k v rest =>
    rw [plain_cons, Bool.and_eq_true] at hp
    have hc : chainsOf (BsonM.cons k v rest) = chainsOfEntry k v ++ chainsOf rest := by
      conv_lhs => unfold chainsOf
    rw [hc, List.map_append] at hnd
    obtain ⟨hnd1, hnd2, hdis⟩ := List.nodup_append.1 hnd
    have hv := flatten_entry_spec ret k v hp.1 hnd1 key
    have hr := flatten_loop_spec (flatten.entry ret k v) rest hp.2 hnd2 key
    have hl : flatten.loop ret (BsonM.cons k v rest)
        = flatten.loop (flatten.entry ret k v) rest := by
      conv_lhs => unfold flatten.loop
    rw [hl, hc]
    constructor
    · intro x hx
      rcases List.mem_append.1 hx with h | h
      · have hnot : key ∉ (chainsOf rest).map Prod.fst := fun hin =>
          hdis (List.mem_map_of_mem Prod.fst h) hin
        rw [hr.2 hnot]
        exact hv.1 x h
      · exact hr.1 x h
    · intro hkey
      rw [List.map_append, List.mem_append, not_or] at hkey
      rw [hr.2 hkey.2]
      exact hv.2 hkey.1
end

/-- What `flatten` does give: when every dictionary inside the input has the dynamic type
`map[string]interface{}` and no two chains of keys give the same dotted key, no value of
the map `flatten` returns is a dictionary, and the map holds the value `v` under a key
exactly when a chain of keys `k1, ..., kn` of the input leads to the value `v`, which is not
a dictionary, and the key is `k1.k2...kn`. -/
theorem flatten_spec_of_plain (m : BsonM) (hp : BsonM.plain m = true)
    (hnd : ((chainsOf m).map Prod.fst).Nodup) :
    (∀ key y, (flatten m).lookup key = some y → ∃ v, y = BsonValue.leaf v) ∧
      ∀ key v, (flatten m).lookup key = some (BsonValue.leaf v) ↔ (key, v) ∈ chainsOf m := by
  have hkey : ∀ key y, (flatten m).lookup key = some y →
      ∃ v, (key, v) ∈ chainsOf m ∧ y = BsonValue.leaf v := by
    intro key y hy
    have hin : key ∈ (chainsOf m).map Prod.fst := by
      by_contra hnot
      have := (flatten_loop_spec ∅ m hp hnd key).2 hnot
      unfold flatten at hy
      rw [this] at hy
      simp at hy
    obtain ⟨⟨key', v⟩, hmem, hfst⟩ := List.mem_map.1 hin
    dsimp only at hfst
    subst hfst
    have := (flatten_loop_spec ∅ m hp hnd key').1 v hmem
    unfold flatten at hy
    rw [this] at hy
    exact ⟨v, hmem, (Option.some.inj hy).symm⟩
  refine ⟨fun key y hy => ?_, fun key v => ⟨fun h => ?_, fun h => ?_⟩⟩
  · obtain ⟨v, _, hv⟩ := hkey key y hy
    exact ⟨v, hv⟩
  · obtain ⟨v', hmem, hv⟩ := hkey key _ h
    cases hv
    exact hmem
  · exact (flatten_loop_spec ∅ m hp hnd key).1 v h

theorem flatten_spec_sampleNested :
    (∀ key y, (flatten sampleNested).lookup key = some y → ∃ v, y = BsonValue.leaf v) ∧
      ∀ key v, (flatten sampleNested).lookup key = some (BsonValue.leaf v) ↔
        (key, v) ∈ chainsOf sampleNested :=
  flatten_spec_of_plain sampleNested (by decide) (by decide)

/-- The dictionary `sampleNested` flattened: three entries, one for each chain of keys;
the empty dictionary under `a.f` leaves none. -/
theorem flatten_sampleNested :
    (flatten sampleNested).entries.map (fun e => (e.1, e.2.content))
      = [("e", some (BsonScalar.str "3")), ("a.b", some (BsonScalar.str "1")),
          ("a.c.d", some (BsonScalar.num 2))] := by
  decide

/-- C25: `flatten` does not turn the dictionary `bson.M{"a": bson.M{"b": "1"}, "e": "3"}`
into a 1-level map. No two chains of keys of this input give the same dotted key, and the
chain `a`, `b` leads to the value `1`, which is not a dictionary; yet the map `flatten`
returns has the keys `e` and `a` alone, its value under `a` is a dictionary, the nested
`bson.M` with its entry `b` copied as it is, and it has no entry under `a.b`. -/
theorem C25_nested_bsonM_kept :
    ((chainsOf sampleNestedBsonM).map Prod.fst).Nodup ∧
      chainsOf sampleNestedBsonM
        = [("a.b", BsonScalar.str "1"), ("e", BsonScalar.str "3")] ∧
      (flatten sampleNestedBsonM).keys = ["e", "a"] ∧
      ((flatten sampleNestedBsonM).lookup "a").map BsonValue.isDictionary = some true ∧
      ((flatten sampleNestedBsonM).lookup "a").map (chainsOfEntry "a")
        = some [("a.b", BsonScalar.str "1")] ∧
      ((flatten sampleNestedBsonM).lookup "a.b").isSome = false ∧
      ((flatten sampleNestedBsonM).lookup "e").map BsonValue.content
        = some (some (BsonScalar.str "3")) := by
  decide

end Giles
